import Mathlib

/-!
# Verification of the aranet4 time-series acquisition and storage core

Shallow embedding of the aranet4 repository:
* the persisted 17-byte sample record codec (`arasrv/server.go`:
  `marshalBinary` / `unmarshalBinary`),
* the bolt-backed store (`internal/arabolt/arabolt.go`) and the
  sqlite-backed store (`internal/arasqlite/arasqlite.go`),
* the history reconstruction post-processing (`device.go`: `ReadAll`),
* the streamed-chunk notification handler (`device.go`: `readN`),
* the retry wrapper (`server.go`: `retry`).

Modelling conventions:
* Go `time.Time` instants and `time.Duration` values are embedded as `ℤ`
  counts of nanoseconds; `Time.Unix()` is floor division by 10^9.
* Machine integers are `ℕ`/`ℤ` with explicit `% 2^w` where Go converts
  between widths (two's-complement wrap-around).
* Go `float64` fields are idealized as exact rationals `ℚ`; a
  float-to-unsigned conversion truncates toward zero and wraps
  (where the Go specification leaves an out-of-range conversion
  implementation-defined, the model commits to wrapping; theorems about
  such conversions restrict to in-range values, and counterexamples rely
  only on implementation-independent facts).
* bbolt buckets are embedded as association lists kept ascending by the
  numeric value of the 8-byte key; the claims under study never observe
  the byte-lexicographic iteration order of bbolt because every consumер
  sorts the collected rows before use.
-/

namespace Aranet4

/-! ## Bytes and little-endian encoding -/

/-- Little-endian 16-bit encoding of a value already reduced mod 2^16. -/
def le16 (n : ℕ) : List ℕ := [n % 256, n / 256 % 256]

/-- Little-endian 64-bit encoding of a value already reduced mod 2^64
(the divisors are 256^1 … 256^7). -/
def le64 (n : ℕ) : List ℕ :=
  [n % 256, n / 256 % 256, n / 65536 % 256, n / 16777216 % 256,
   n / 4294967296 % 256, n / 1099511627776 % 256,
   n / 281474976710656 % 256, n / 72057594037927936 % 256]

/-- `binary.LittleEndian.Uint16` of two bytes. -/
def dec16 (b0 b1 : ℕ) : ℕ := b0 + 256 * b1

/-- `binary.LittleEndian.Uint64` of eight bytes (multipliers 256^1 … 256^7). -/
def dec64 (b0 b1 b2 b3 b4 b5 b6 b7 : ℕ) : ℕ :=
  b0 + 256 * b1 + 65536 * b2 + 16777216 * b3 + 4294967296 * b4 +
    1099511627776 * b5 + 281474976710656 * b6 + 72057594037927936 * b7

/-- Go `int64(u)` for a `uint64` value: two's-complement reinterpretation. -/
def toSigned64 (n : ℕ) : ℤ :=
  if n < 2 ^ 63 then (n : ℤ) else (n : ℤ) - 2 ^ 64

/-- Go conversion of a signed integer to a `w`-bit unsigned integer
(truncation to the low `w` bits). -/
def intToU (w : ℕ) (z : ℤ) : ℕ := (z % (2 ^ w : ℕ)).toNat

/-- Rational truncation toward zero — the rounding Go uses when converting a
floating-point value to an integer type. -/
def qTrunc (q : ℚ) : ℤ := if 0 ≤ q then ⌊q⌋ else -⌊-q⌋

/-- Go conversion of a (here: exact-rational) floating-point value to a
`w`-bit unsigned integer: truncate toward zero, wrap mod `2^w` (the wrap is a
modelling choice where Go leaves out-of-range results implementation-defined;
in-range values are unaffected). -/
def ratToU (w : ℕ) (q : ℚ) : ℕ := (qTrunc q).toNat % 2 ^ w

/-! ## The sample record (`aranet4.Data`) -/

/-- Nanoseconds per second (Go durations are counted in nanoseconds). -/
def nsPerSec : ℤ := 1000000000

/-- Nanoseconds per minute, `time.Minute`. -/
def nsPerMinute : ℤ := 60000000000

/-- `Time.Unix()`: seconds since the epoch, floor division. -/
def unixSec (t : ℤ) : ℤ := Int.fdiv t nsPerSec

/-- `Duration.Minutes()` as an exact rational. -/
def minutesQ (d : ℤ) : ℚ := (d : ℚ) / (nsPerMinute : ℚ)

/-- The Unix second count of Go's zero `time.Time` (January 1, year 1 UTC). -/
def goZeroUnix : ℤ := -62135596800

/-- One measurement sample, `aranet4.Data`. `time` and `interval` are in
nanoseconds; `h`, `p`, `t` are the humidity/pressure/temperature floats;
`battery`, `co2`, `quality` are Go `int`s. -/
structure Data where
  time : ℤ
  co2 : ℤ
  t : ℚ
  p : ℚ
  h : ℚ
  battery : ℤ
  quality : ℤ
  interval : ℤ
  deriving Repr, DecidableEq

/-- The zero `aranet4.Data` value (zero `time.Time`, zero numeric fields). -/
def Data.zero : Data :=
  { time := goZeroUnix * nsPerSec, co2 := 0, t := 0, p := 0, h := 0,
    battery := 0, quality := 0, interval := 0 }

/-- Modelled from the spec: `aranet4.QualityFrom` is not under `src/`; per the
spec, Quality is "a coarse health classification derived deterministically
from CO2 concentration". Any deterministic function of CO2 satisfies the
claims under study; concrete thresholds are chosen for executability. -/
def qualityFrom (co2 : ℤ) : ℤ :=
  if co2 < 1000 then 1 else if co2 < 1400 then 2 else 3

/-! ## The persisted 17-byte record codec (`arasrv/server.go`) -/

/-- Decode errors of the store layer. -/
inductive DBErr where
  | shortBuffer
  | noSuchDevice
  | noData
  | dupDevice
  | noBucket
  | constraint
  deriving Repr, DecidableEq

/-- `marshalBinary` (`arasrv/server.go:978`): the 17-byte persisted record.
The Go function writes into a caller-supplied buffer and errors when the
buffer length is not 17; every caller in the repository allocates exactly
`dataSize == 17` bytes, so the model produces the byte list directly. -/
def marshalBinary (d : Data) : List ℕ :=
  le64 (intToU 64 (unixSec d.time)) ++
  [ratToU 8 d.h] ++
  le16 (ratToU 16 (d.p * 10)) ++
  le16 (ratToU 16 (d.t * 100)) ++
  le16 (intToU 16 d.co2) ++
  [intToU 8 d.battery] ++
  [ratToU 8 (minutesQ d.interval)]

/-- `unmarshalBinary` (`arasrv/server.go:963`): decodes a 17-byte buffer;
any other length yields `io.ErrShortBuffer`. Quality is recomputed from CO2. -/
def unmarshalBinary : List ℕ → Except DBErr Data
  | [t0, t1, t2, t3, t4, t5, t6, t7, hb, p0, p1, tb0, tb1, c0, c1, bat, itv] =>
    .ok { time := toSigned64 (dec64 t0 t1 t2 t3 t4 t5 t6 t7) * nsPerSec
        , h := (hb : ℚ)
        , p := (dec16 p0 p1 : ℚ) / 10
        , t := (dec16 tb0 tb1 : ℚ) / 100
        , co2 := (dec16 c0 c1 : ℤ)
        , battery := (bat : ℤ)
        , quality := qualityFrom (dec16 c0 c1 : ℤ)
        , interval := (itv : ℤ) * nsPerMinute }
  | _ => .error .shortBuffer

/-! ## Approximate ordering of samples (the 5-second tolerance window) -/

/-- `timeResolution` (arabolt.go:303): 5 seconds. -/
def timeResolution : ℤ := 5

/-- `ltApprox` (arabolt.go:306): `a` is strictly before `b` and outside the
5-second tolerance window (`abs(at-bt) < timeResolution` makes them
"approximately equal"). -/
def ltApprox (a b : Data) : Prop :=
  ¬ (|unixSec a.time - unixSec b.time| < timeResolution) ∧
    unixSec a.time < unixSec b.time

instance : DecidableRel ltApprox := fun a b => by
  unfold ltApprox; infer_instance

/-- Modelled from the spec: `aranet4.Samples` (the `sort.Interface` used by
arasqlite `PutData`) and `aranet4.Data.Before` are not under `src/`; per the
spec the batch is sorted "ascending by Time" and the last-sample pointer
advances to samples later in time. Both compare the full-precision
timestamps. -/
def timeBefore (a b : Data) : Prop := a.time < b.time

instance : DecidableRel timeBefore := fun a b => by
  unfold timeBefore; infer_instance

/-- One insertion step of Go's sort (`sort.Slice` / `sort.Sort`): the new
element `x` moves left past its predecessors exactly while `less` holds.
The accumulator is the already-processed prefix in reversed order, so its
head is the rightmost prefix element. -/
def goInsertRev (lt : Data → Data → Prop) [DecidableRel lt] (x : Data) :
    List Data → List Data
  | [] => [x]
  | y :: rest => if lt x y then y :: goInsertRev lt x rest else x :: y :: rest

/-- `sort.Slice(vs, less)` / `sort.Sort`: Go's pdqsort runs plain insertion
sort on short slices (length < 12; all batches exercised concretely here are
shorter), and the comparators used by the stores are not strict weak orders
— pairs within the 5-second tolerance (or with equal times) are
incomparable, a case where Go's sorting contract promises nothing. The model
therefore fixes the semantics the program actually executes: each element
moves left exactly while `less` holds, which keeps incomparable pairs in
input order. On batches over which the comparator is total (for example
tolerance-separated batches) this coincides with every correct sort. -/
def goSort (lt : Data → Data → Prop) [DecidableRel lt] (vs : List Data) :
    List Data :=
  (vs.foldl (fun r x => goInsertRev lt x r) []).reverse

/-! ## The bolt-backed store (`internal/arabolt/arabolt.go`)

The per-device bbolt bucket maps the 8-byte key `uint64(Time.Unix())` to the
17-byte marshalled record. The bucket is embedded as an association list kept
ascending by the numeric key value; the difference from bbolt's
byte-lexicographic order of the little-endian keys is unobservable through
the operations studied here because `Data` sorts the collected rows before
yielding them. -/

/-- Association-list lookup for the string-keyed maps of both stores. -/
def alookup {α : Type} : List (String × α) → String → Option α
  | [], _ => none
  | (k, v) :: rest, id => if k = id then some v else alookup rest id

/-- Association-list update (replace, or append when absent). -/
def aset {α : Type} : List (String × α) → String → α → List (String × α)
  | [], id, v => [(id, v)]
  | (k, w) :: rest, id, v =>
    if k = id then (id, v) :: rest else (k, w) :: aset rest id v

/-- The bucket key of a sample: `uint64(v.Time.UTC().Unix())`. -/
def boltKey (v : Data) : ℕ := intToU 64 (unixSec v.time)

/-- `bkt.Put`: insert or replace under the key, keeping the bucket ordered. -/
def putKV : List (ℕ × List ℕ) → ℕ → List ℕ → List (ℕ × List ℕ)
  | [], k, v => [(k, v)]
  | (k', v') :: rest, k, v =>
    if k < k' then (k, v) :: (k', v') :: rest
    else if k = k' then (k, v) :: rest
    else (k', v') :: putKV rest k v

/-- The whole bolt store: the per-device data buckets and the in-memory
`db.last` cache (`arabolt.DB`). -/
structure BoltDB where
  devs : List (String × List (ℕ × List ℕ))
  last : List (String × Data)
  deriving Repr, DecidableEq

/-- `Last` (arabolt.go:248): no map entry means an unknown device; a zero-time
cached sample means the namespace is empty (`ErrNoData`). -/
def boltLast (db : BoltDB) (id : String) : Except DBErr Data :=
  match alookup db.last id with
  | none => .error .noSuchDevice
  | some d => if d.time = Data.zero.time then .error .noData else .ok d

/-- The body of arabolt `PutData`'s write transaction (arabolt.go:163–183):
store each remaining sample under its key and set the cached last sample to
`v` (with Quality recomputed) whenever `v` is strictly after the pre-call
last sample `last0`. -/
def boltWriteLoop (last0 : Data) (vs : List Data)
    (store : List (ℕ × List ℕ)) (cache : Data) : List (ℕ × List ℕ) × Data :=
  vs.foldl
    (fun acc v =>
      (putKV acc.1 (boltKey v) (marshalBinary v),
       if ltApprox last0 v then { v with quality := qualityFrom v.co2 } else acc.2))
    (store, cache)

/-- `PutData` (arabolt.go:123): look up the namespace's last sample (a
zero-time cache entry is `ErrNoData` and treated as an empty namespace), sort
the batch with `ltApprox`, drop the prefix up to the first sample strictly
after the last sample, and write the remaining suffix. -/
def boltPutData (db : BoltDB) (id : String) (vs : List Data) :
    Except DBErr Unit × BoltDB :=
  match alookup db.last id with
  | none => (.error .noSuchDevice, db)
  | some cached =>
    let sorted := goSort ltApprox vs
    let keep := sorted.drop (sorted.findIdx fun v => decide (ltApprox cached v))
    if keep.isEmpty then (.ok (), db)
    else
      match alookup db.devs id with
      | none => (.error .noBucket, db)
      | some store =>
        let res := boltWriteLoop cached keep store cached
        (.ok (), { devs := aset db.devs id res.1, last := aset db.last id res.2 })

/-- The `ForEach` collection pass of arabolt `Data` (arabolt.go:211–228):
unmarshal every record and keep the rows with `beg ≤ t` and, when `end > 0`,
`t ≤ end` (note: the source keeps `t == end`). -/
def boltFilterRows (beg endt : ℤ) : List (ℕ × List ℕ) → Except DBErr (List Data)
  | [] => .ok []
  | (_, bytes) :: rest => do
    let row ← unmarshalBinary bytes
    let rows ← boltFilterRows beg endt rest
    let t := unixSec row.time
    if beg > t then .ok rows
    else if endt > 0 ∧ t > endt then .ok rows
    else .ok (row :: rows)

/-- `Data` (arabolt.go:193): collect and filter the stored rows, then sort
them with `ltApprox` before yielding. `beg`/`endt` are the Unix second values
of the two `time.Time` bounds. -/
def boltData (db : BoltDB) (id : String) (beg endt : ℤ) :
    Except DBErr (List Data) :=
  match alookup db.devs id with
  | none => .error .noBucket
  | some store => do
    let rows ← boltFilterRows beg endt store
    .ok (goSort ltApprox rows)

/-- `AddDevice` (arabolt.go:262): record the id, create the data bucket only
if absent, and unconditionally reset the cached last sample to the zero
`Data`. It never fails on a duplicate id. -/
def boltAddDevice (db : BoltDB) (id : String) : Except DBErr Unit × BoltDB :=
  (.ok (),
   { devs :=
       match alookup db.devs id with
       | some _ => db.devs
       | none => aset db.devs id []
   , last := aset db.last id Data.zero })

/-! ## The sqlite-backed store (`internal/arasqlite/arasqlite.go`)

The per-device table has `time INTEGER NOT NULL PRIMARY KEY` plus the
numeric columns; it is embedded as an association list ascending by the
primary key (the index order used by `ORDER BY time ASC`). -/

/-- One table row (the `time` column is the key of the association list). -/
structure SqlRow where
  h : ℚ
  p : ℚ
  t : ℚ
  co2 : ℤ
  battery : ℤ
  interval : ℤ
  deriving Repr, DecidableEq

/-- The column values inserted for a sample (arasqlite.go:227–236);
`interval` is `int(v.Interval.Minutes())`. -/
def rowOf (v : Data) : SqlRow :=
  { h := v.h, p := v.p, t := v.t, co2 := v.co2, battery := v.battery,
    interval := qTrunc (minutesQ v.interval) }

/-- Reading one row back (arasqlite.go:284–297): second-resolution time,
minutes-resolution interval, Quality recomputed from CO2. -/
def rowToData (k : ℤ) (r : SqlRow) : Data :=
  { time := k * nsPerSec, co2 := r.co2, t := r.t, p := r.p, h := r.h,
    battery := r.battery, quality := qualityFrom r.co2,
    interval := r.interval * nsPerMinute }

/-- Primary-key lookup. -/
def tblLookup : List (ℤ × SqlRow) → ℤ → Option SqlRow
  | [], _ => none
  | (k', r) :: rest, k => if k' = k then some r else tblLookup rest k

/-- Ordered insert under a fresh primary key. -/
def tblInsert : List (ℤ × SqlRow) → ℤ → SqlRow → List (ℤ × SqlRow)
  | [], k, r => [(k, r)]
  | (k', r') :: rest, k, r =>
    if k < k' then (k, r) :: (k', r') :: rest
    else (k', r') :: tblInsert rest k r

/-- The whole sqlite store: per-device tables and the in-memory `db.last`
cache (`arasqlite.DB`). -/
structure SqlDB where
  devs : List (String × List (ℤ × SqlRow))
  last : List (String × Data)
  deriving Repr, DecidableEq

/-- `Last` (arasqlite.go:306): same contract as the bolt backend. -/
def sqlLast (db : SqlDB) (id : String) : Except DBErr Data :=
  match alookup db.last id with
  | none => .error .noSuchDevice
  | some d => if d.time = Data.zero.time then .error .noData else .ok d

/-- The INSERT loop of arasqlite `PutData` (arasqlite.go:227–244): every
sorted sample is inserted unconditionally; a duplicate `time` primary key
aborts the transaction with a constraint error. The cached last sample is
advanced (against the pre-call value `last0`) after each successful insert —
a live-map mutation that is *not* rolled back with the transaction. -/
def sqlInsertLoop (id : String) (last0 : Data) :
    List Data → List (ℤ × SqlRow) → List (String × Data) →
    Option DBErr × List (ℤ × SqlRow) × List (String × Data)
  | [], tbl, lm => (none, tbl, lm)
  | v :: rest, tbl, lm =>
    let k := unixSec v.time
    if (tblLookup tbl k).isSome then (some .constraint, tbl, lm)
    else
      let lm' :=
        if timeBefore last0 v then aset lm id { v with quality := qualityFrom v.co2 }
        else lm
      sqlInsertLoop id last0 rest (tblInsert tbl k (rowOf v)) lm'

/-- `PutData` (arasqlite.go:192): sort ascending by time, insert every sample
inside one transaction; on a constraint error the transaction rolls back (the
table keeps its pre-call contents) but the cache mutations survive. -/
def sqlPutData (db : SqlDB) (id : String) (vs : List Data) :
    Except DBErr Unit × SqlDB :=
  match alookup db.last id with
  | none => (.error .noSuchDevice, db)
  | some last0 =>
    let sorted := goSort timeBefore vs
    match alookup db.devs id with
    | none => (.error .noBucket, db)
    | some tbl =>
      match sqlInsertLoop id last0 sorted tbl db.last with
      | (some e, _, lm') => (.error e, { devs := db.devs, last := lm' })
      | (none, tbl', lm') => (.ok (), { devs := aset db.devs id tbl', last := lm' })

/-- `Data` (arasqlite.go:255): `SELECT … WHERE beg ≤ time AND time < end
ORDER BY time ASC`, each bound participating only when its Unix value is
positive. -/
def sqlData (db : SqlDB) (id : String) (beg endt : ℤ) :
    Except DBErr (List Data) :=
  match alookup db.devs id with
  | none => .error .noBucket
  | some tbl =>
    .ok ((tbl.filter fun kr =>
           decide (beg > 0 → beg ≤ kr.1) && decide (endt > 0 → kr.1 < endt)).map
         fun kr => rowToData kr.1 kr.2)

/-- `AddDevice` (arasqlite.go:320): duplicate ids are rejected with
`ErrDupDevice`; otherwise the devices row and the per-device table are
created and the cached last sample starts out zero. -/
def sqlAddDevice (db : SqlDB) (id : String) : Except DBErr Unit × SqlDB :=
  if (alookup db.last id).isSome then (.error .dupDevice, db)
  else (.ok (), { devs := aset db.devs id [], last := aset db.last id Data.zero })

/-! ## The streamed-chunk notification handler (`device.go`: `readN`) -/

/-- Channel parameter codes. Modelled from the spec: the concrete values of
`paramT`/`paramH`/`paramP`/`paramCO2` live in the `aranet4` package outside
`src/`; the spec only fixes the channel set
{Temperature, Humidity, Pressure, CO2}. -/
def paramT : ℕ := 1

/-- Humidity channel code (see `paramT`). -/
def paramH : ℕ := 2

/-- Pressure channel code (see `paramT`). -/
def paramP : ℕ := 3

/-- CO2 channel code (see `paramT`). -/
def paramCO2 : ℕ := 4

/-- Modelled from the spec: `decoder.readField` (outside `src/`) decodes one
channel-specific value into the sample's field for that channel. -/
def setField (id : ℕ) (q : ℚ) (d : Data) : Data :=
  if id = paramT then { d with t := q }
  else if id = paramH then { d with h := q }
  else if id = paramP then { d with p := q }
  else if id = paramCO2 then { d with co2 := qTrunc q }
  else d

/-- One inbound streamed notification frame, already split per §4.1: byte 0,
the little-endian `uint16` of bytes 1–2 (1-based chunk start), byte 3
(element count), and the channel-specific values of bytes 4… — `none` is the
per-value "no data" sentinel (`ErrNoData`), which is logged and tolerated. -/
structure Frame where
  param : ℕ
  rawIdx : ℕ
  cnt : ℕ
  vals : List (Option ℚ)

/-- `int(binary.LittleEndian.Uint16(p[1:]) - 1)`: the 1-based wire index
converted to 0-based in `uint16` arithmetic. -/
def chunkStart (rawIdx : ℕ) : ℕ := (rawIdx + 65535) % 65536

/-- Outcome of handling one notification frame inside `readN`. -/
inductive ChunkOutcome where
  | fail
  | done
  | next (dst : List Data)
  deriving Repr, DecidableEq

/-- One step of the handler's write loop: a decoded value updates slot `i`;
the "no data" sentinel (`ErrNoData`) is logged and leaves the slot
untouched. -/
def applyVal (id : ℕ) (i : ℕ) (v : Option ℚ) (dst : List Data) : List Data :=
  match v with
  | some q => dst.set i (setField id q (dst.getD i Data.zero))
  | none => dst

/-- The write loop of the notification handler (device.go:260–268): write
decoded values into slots `i ∈ [idx, stop)`; an exhausted decoder is a real
decode error, the "no data" sentinel leaves the slot untouched. -/
def writeVals (id : ℕ) (stop : ℕ) : ℕ → List (Option ℚ) → List Data →
    Option (List Data)
  | i, [], dst => if i < stop then none else some dst
  | i, v :: vrest, dst =>
    if i < stop then writeVals id stop (i + 1) vrest (applyVal id i v dst)
    else some dst

/-- The notification handler of `readN` (device.go:245–274): reject a
channel-id mismatch, treat a zero element count as the end-of-stream marker,
and otherwise write the chunk's values clipped to `[0, len dst)`
(`max := min(idx+cnt, len(dst))` — "a new sample may have appeared"). -/
def handleChunk (id : ℕ) (fr : Frame) (dst : List Data) : ChunkOutcome :=
  if fr.param ≠ id then .fail
  else
    let idx := chunkStart fr.rawIdx
    if fr.cnt = 0 then .done
    else
      match writeVals id (min (idx + fr.cnt) dst.length) idx fr.vals dst with
      | none => .fail
      | some dst' => .next dst'

/-! ## History reconstruction post-processing (`device.go`: `ReadAll`) -/

/-- The post-processing stage of `ReadAll` (device.go:205–211). The four
per-channel reads have filled `out` (allocated with length `n` from
`NumData`, and `readN` preserves the length); every slot then has its
battery, quality, interval and absolute timestamp overwritten:
`beg = now − ago − (n−1)·delta`, slot `i` gets `beg + i·delta`. All
quantities are nanosecond counts. -/
def readAllPost (now ago delta : ℤ) (out : List Data) : List Data :=
  let n := out.length
  let beg := now - ago - ((n : ℤ) - 1) * delta
  out.mapIdx fun i d =>
    { d with battery := -1, quality := qualityFrom d.co2, interval := delta,
             time := beg + (i : ℤ) * delta }

/-! ## The retry wrapper (`server.go`: `retry`) -/

/-- The loop of `retry` (server.go:199): `i` attempts made so far, `rem`
attempts remaining, `err` the last error seen (`none` before any attempt —
the value returned when the loop never runs). `f i` is the result of the
`i`-th invocation (`none` = success). Returns the final result and the
number of invocations made. -/
def retryLoop {E : Type} (f : ℕ → Option E) : ℕ → ℕ → Option E → Option E × ℕ
  | i, 0, err => (err, i)
  | i, rem + 1, _ =>
    match f i with
    | none => (none, i + 1)
    | some e => retryLoop f (i + 1) rem (some e)

/-- `retry(n, f)` (server.go:199): run `f` up to `n` times, returning `nil`
right after the first success, and the last error on exhaustion (`nil` when
`n = 0`, without ever invoking `f`). -/
def retry {E : Type} (n : ℕ) (f : ℕ → Option E) : Option E × ℕ :=
  retryLoop f 0 n none

/-! ## Concrete objects used by witnesses and counterexamples -/

/-- A sample at Unix second `u`, other fields innocuous. -/
def atSec (u : ℤ) : Data := { Data.zero with time := u * nsPerSec }

/-- An in-range sample exercising every field of the record codec. -/
def exSample : Data :=
  { time := 1700000000 * nsPerSec, co2 := 600, t := (2215 : ℚ) / 100,
    p := (10133 : ℚ) / 10, h := 42, battery := 95, quality := 1,
    interval := 2 * nsPerMinute }

/-- A sample with a (claim-allowed) negative temperature. -/
def negTSample : Data :=
  { time := 0, co2 := 600, t := -(1 : ℚ) / 100, p := 0, h := 0,
    battery := 0, quality := 1, interval := 0 }

/-- The 17-byte record of `atSec 100` (time 100, all other fields zero). -/
def rec100 : List ℕ := [100, 0, 0, 0, 0, 0, 0, 0, 0, 0, 0, 0, 0, 0, 0, 0, 0]

/-- A bolt store holding one device with one sample at Unix second 100. -/
def c4db : BoltDB :=
  { devs := [("dev1", [(100, rec100)])]
  , last := [("dev1", { atSec 100 with quality := 1 })] }

/-- The same store contents for exercising `AddDevice` on the bolt backend. -/
def c9bolt : BoltDB := c4db

/-- A fresh bolt store with one empty namespace. -/
def boltDB1 : BoltDB := (boltAddDevice ⟨[], []⟩ "dev1").2

/-- A fresh sqlite store with one empty namespace. -/
def sqlDB1 : SqlDB := (sqlAddDevice ⟨[], []⟩ "dev1").2

/-! ### The bolt namespace invariant

`boltWF store cached` is the §4.4 invariant of one bolt namespace: the bucket
keys ascend with gaps of at least the 5-second tolerance, every stored value
decodes to a sample whose Unix second equals its key, and the cached last
sample is the zero sample exactly when the bucket is empty and otherwise
carries the maximal stored time. -/

/-- Bucket keys ascend with gaps of at least the tolerance. -/
def keySep (store : List (ℕ × List ℕ)) : Prop :=
  store.Pairwise fun a b => a.1 + 5 ≤ b.1

/-- A stored record decodes to a sample whose Unix second is the key. -/
def recOK (kv : ℕ × List ℕ) : Prop :=
  ∃ r, unmarshalBinary kv.2 = .ok r ∧ unixSec r.time = (kv.1 : ℤ)

/-- Well-formedness of one bolt namespace (see the section comment). -/
def boltWF (store : List (ℕ × List ℕ)) (cached : Data) : Prop :=
  keySep store ∧ (∀ kv ∈ store, recOK kv) ∧
  ((store = [] ∧ cached.time = Data.zero.time) ∨
   (store ≠ [] ∧ (∃ kv ∈ store, unixSec cached.time = (kv.1 : ℤ)) ∧
     (∀ kv ∈ store, (kv.1 : ℤ) ≤ unixSec cached.time)))

/-! # Theorems -/

/-! ## Retry wrapper lemmas (C10) -/

theorem retryLoop_zero {E : Type} (f : ℕ → Option E) (i : ℕ) (err : Option E) :
    retryLoop f i 0 err = (err, i) := rfl

theorem retryLoop_snd_le {E : Type} (f : ℕ → Option E) :
    ∀ (rem i : ℕ) (err : Option E), (retryLoop f i rem err).2 ≤ i + rem := by
  intro rem
  induction rem with
  | zero => intro i err; simp [retryLoop]
  | succ m ih =>
    intro i err
    rw [retryLoop]
    cases h : f i with
    | none => simp
    | some e =>
      have := ih (i + 1) (some e)
      simpa using le_trans this (by omega)

theorem retryLoop_success {E : Type} (f : ℕ → Option E) :
    ∀ (rem k i : ℕ) (err : Option E), k < rem → f (i + k) = none →
      (∀ j, j < k → f (i + j) ≠ none) →
      retryLoop f i rem err = (none, i + k + 1) := by
  intro rem
  induction rem with
  | zero => intro k i err hk _ _; omega
  | succ m ih =>
    intro k i err hk hsucc hfail
    cases k with
    | zero =>
      have h0 : f i = none := by simpa using hsucc
      rw [retryLoop, h0]
    | succ k' =>
      have hfi : f i ≠ none := by
        have := hfail 0 (Nat.succ_pos k')
        simpa using this
      cases hfi' : f i with
      | none => exact absurd hfi' hfi
      | some e =>
        rw [retryLoop, hfi']
        have heq : i + 1 + k' = i + (k' + 1) := by omega
        have := ih k' (i + 1) (some e) (by omega)
          (by rw [heq]; exact hsucc)
          (fun j hj => by
            rw [show i + 1 + j = i + (j + 1) by omega]
            exact hfail (j + 1) (by omega))
        show retryLoop f (i + 1) m (some e) = (none, i + (k' + 1) + 1)
        rw [this]
        congr 1
        omega

/-- C10: the retry wrapper with `n = 0` attempts reports success without
invoking the operation; in general it invokes the operation at most `n`
times and returns `nil` immediately after the first successful attempt. -/
theorem c10_retry {E : Type} (n : ℕ) (f : ℕ → Option E) :
    retry 0 f = (none, 0) ∧
    (retry n f).2 ≤ n ∧
    (∀ k, k < n → f k = none → (∀ j, j < k → f j ≠ none) →
      retry n f = (none, k + 1)) := by
  refine ⟨rfl, ?_, ?_⟩
  · simpa using retryLoop_snd_le f n 0 none
  · intro k hk hsucc hfail
    have := retryLoop_success f n k 0 none hk (by simpa using hsucc)
      (fun j hj => by simpa using hfail j hj)
    simpa [retry] using this

/-- Witness for C10 at concrete inputs: `n = 3`, failure then success. -/
theorem c10_retry_witness :
    retry 0 (fun _ => some 7) = (none, 0) ∧
    (retry 3 (fun i => if i = 1 then none else some i)).2 ≤ 3 ∧
    retry 3 (fun i => if i = 1 then none else some i) = (none, 2) := by
  have h := c10_retry 3 (fun i => if i = 1 then none else some i)
  exact ⟨(c10_retry 0 (fun _ => some 7)).1, h.2.1,
    h.2.2 1 (by decide) (by decide) (by decide)⟩

/-! ## History reconstruction arithmetic (C5) -/

theorem getD_of_lt {α : Type} (l : List α) (d : α) (i : ℕ) (h : i < l.length) :
    l.getD i d = l.get ⟨i, h⟩ := by
  simp [List.getD_eq_getElem?_getD, List.getElem?_eq_getElem h]

theorem readAllPost_length (now ago delta : ℤ) (out : List Data) :
    (readAllPost now ago delta out).length = out.length := by
  simp [readAllPost]

theorem readAllPost_getD (now ago delta : ℤ) (out : List Data) (i : ℕ)
    (hi : i < out.length) :
    (readAllPost now ago delta out).getD i Data.zero =
      { out.get ⟨i, hi⟩ with
        battery := -1
        quality := qualityFrom (out.get ⟨i, hi⟩).co2
        interval := delta
        time := now - ago - ((out.length : ℤ) - 1) * delta + (i : ℤ) * delta } := by
  have hlen : i < (readAllPost now ago delta out).length := by
    rw [readAllPost_length]; exact hi
  rw [getD_of_lt _ _ _ hlen]
  simp only [readAllPost]
  exact List.get_mapIdx out _ i hi

/-- C5: `ReadAll` post-processing — on a measurement array of length `N`
(allocated from the device's stored-sample count) with elapsed time `ago`
and refresh interval `delta > 0`, the result has exactly `N` samples; slot
`i` carries timestamp `now − ago − (N−1)·delta + i·delta`, battery `−1`,
quality derived from its CO2 value, and interval `delta`; consecutive
timestamps ascend strictly, uniformly spaced by `delta`. -/
theorem c5_readall_timestamps (now ago delta : ℤ) (out : List Data)
    (hdelta : 0 < delta) :
    (readAllPost now ago delta out).length = out.length ∧
    (∀ i, i < out.length →
      ((readAllPost now ago delta out).getD i Data.zero).time =
        now - ago - ((out.length : ℤ) - 1) * delta + (i : ℤ) * delta) ∧
    (∀ i (hi : i < out.length),
      ((readAllPost now ago delta out).getD i Data.zero).battery = -1 ∧
      ((readAllPost now ago delta out).getD i Data.zero).quality =
        qualityFrom (out.get ⟨i, hi⟩).co2 ∧
      ((readAllPost now ago delta out).getD i Data.zero).co2 =
        (out.get ⟨i, hi⟩).co2 ∧
      ((readAllPost now ago delta out).getD i Data.zero).interval = delta) ∧
    (∀ i j, i < j → j < out.length →
      ((readAllPost now ago delta out).getD i Data.zero).time <
        ((readAllPost now ago delta out).getD j Data.zero).time) ∧
    (∀ i, i + 1 < out.length →
      ((readAllPost now ago delta out).getD (i + 1) Data.zero).time -
        ((readAllPost now ago delta out).getD i Data.zero).time = delta) := by
  refine ⟨readAllPost_length now ago delta out, ?_, ?_, ?_, ?_⟩
  · intro i hi
    rw [readAllPost_getD now ago delta out i hi]
  · intro i hi
    rw [readAllPost_getD now ago delta out i hi]
    exact ⟨rfl, rfl, rfl, rfl⟩
  · intro i j hij hj
    rw [readAllPost_getD now ago delta out i (lt_trans hij hj),
        readAllPost_getD now ago delta out j hj]
    dsimp only
    have hcast : (i : ℤ) < (j : ℤ) := by exact_mod_cast hij
    have : (0 : ℤ) < ((j : ℤ) - (i : ℤ)) * delta :=
      mul_pos (by omega) hdelta
    nlinarith [this]
  · intro i hi
    rw [readAllPost_getD now ago delta out i (by omega),
        readAllPost_getD now ago delta out (i + 1) hi]
    dsimp only
    push_cast
    ring

/-- Witness for C5: three samples, `ago = 30 s`, `delta = 60 s`, `now = T`:
timestamps `T − 150 s`, `T − 90 s`, `T − 30 s` (in nanoseconds). -/
theorem c5_readall_witness :
    (0 : ℤ) < 60 * nsPerSec ∧
    ((readAllPost 0 (30 * nsPerSec) (60 * nsPerSec)
        [Data.zero, Data.zero, Data.zero]).getD 0 Data.zero).time =
      -(150 * nsPerSec) ∧
    ((readAllPost 0 (30 * nsPerSec) (60 * nsPerSec)
        [Data.zero, Data.zero, Data.zero]).getD 1 Data.zero).time =
      -(90 * nsPerSec) ∧
    ((readAllPost 0 (30 * nsPerSec) (60 * nsPerSec)
        [Data.zero, Data.zero, Data.zero]).getD 2 Data.zero).time =
      -(30 * nsPerSec) := by
  have h := c5_readall_timestamps 0 (30 * nsPerSec) (60 * nsPerSec)
    [Data.zero, Data.zero, Data.zero] (by norm_num [nsPerSec])
  refine ⟨by norm_num [nsPerSec], ?_, ?_, ?_⟩
  · rw [h.2.1 0 (by norm_num)]; norm_num [nsPerSec]
  · rw [h.2.1 1 (by norm_num)]; norm_num [nsPerSec]
  · rw [h.2.1 2 (by norm_num)]; norm_num [nsPerSec]

/-! ## Streamed-chunk handling (C6, C8) -/

theorem writeVals_spec (id stop : ℕ) (vals : List (Option ℚ)) :
    ∀ (i : ℕ) (dst : List Data), stop ≤ i + vals.length → stop ≤ dst.length →
    ∃ dst', writeVals id stop i vals dst = some dst' ∧
      dst'.length = dst.length ∧
      (∀ j, j < i ∨ stop ≤ j → dst'.getD j Data.zero = dst.getD j Data.zero) ∧
      (∀ j, i ≤ j → j < stop →
        dst'.getD j Data.zero =
          match vals.getD (j - i) none with
          | some q => setField id q (dst.getD j Data.zero)
          | none => dst.getD j Data.zero) := by
  induction vals with
  | nil =>
    intro i dst hstop _
    simp only [List.length_nil, Nat.add_zero] at hstop
    refine ⟨dst, ?_, rfl, fun j _ => rfl, ?_⟩
    · rw [writeVals, if_neg (by omega)]
    · intro j hij hjs
      omega
  | cons v vrest ih =>
    intro i dst hstop hdst
    simp only [List.length_cons] at hstop
    by_cases hi : i < stop
    · have hidst : i < dst.length := lt_of_lt_of_le hi hdst
      have hlen1 : (applyVal id i v dst).length = dst.length := by
        cases v <;> simp [applyVal]
      have hne : ∀ j, j ≠ i →
          (applyVal id i v dst).getD j Data.zero = dst.getD j Data.zero := by
        intro j hj
        cases v with
        | none => rfl
        | some q =>
          simp only [applyVal, List.getD_eq_getElem?_getD,
            List.getElem?_set_ne (fun h => hj h.symm)]
      have hat : (applyVal id i v dst).getD i Data.zero =
          (match v with
           | some q => setField id q (dst.getD i Data.zero)
           | none => dst.getD i Data.zero) := by
        cases v with
        | none => rfl
        | some q =>
          simp [applyVal, List.getD_eq_getElem?_getD, List.getElem?_set, hidst]
      obtain ⟨dst', heq, hlen, hout, hin⟩ := ih (i + 1) (applyVal id i v dst)
        (by omega)
        (by rw [hlen1]; exact hdst)
      refine ⟨dst', ?_, by rw [hlen, hlen1], ?_, ?_⟩
      · show writeVals id stop i (v :: vrest) dst = some dst'
        simp only [writeVals]
        rw [if_pos hi]
        exact heq
      · intro j hj
        rw [hout j (by omega), hne j (by omega)]
      · intro j hij hjs
        rcases Nat.eq_or_lt_of_le hij with hji | hji
        · rw [show j = i from by omega]
          rw [hout i (Or.inl (by omega)), hat]
          simp only [List.getD_cons_zero, Nat.sub_self, List.getD_eq_getElem?_getD,
            List.getElem?_cons_zero, Option.getD_some]
          cases v <;> rfl
        · have harith : j - (i + 1) = j - i - 1 := by omega
          rw [hin j (by omega) hjs, harith, hne j (by omega)]
          have hgetd : (v :: vrest).getD (j - i) none = vrest.getD (j - i - 1) none := by
            rcases Nat.exists_eq_add_of_lt hji with ⟨k, hk⟩
            have hk1 : j - i = k + 1 := by omega
            rw [hk1]
            simp
          rw [hgetd]
    · refine ⟨dst, ?_, rfl, fun j _ => rfl, ?_⟩
      · show writeVals id stop i (v :: vrest) dst = some dst
        simp only [writeVals]
        rw [if_neg hi]
      · intro j hij hjs
        omega

/-- C6: during a per-channel history read, a chunk whose start index plus
count exceeds the output length writes only the slots below the length —
the excess values are silently dropped (the handler still reports success),
and no write ever lands outside `[0, len dst)`. -/
theorem c6_chunk_clipping (id : ℕ) (fr : Frame) (dst : List Data)
    (hparam : fr.param = id) (hcnt : 0 < fr.cnt)
    (hvals : fr.vals.length = fr.cnt) :
    ∃ dst', handleChunk id fr dst = .next dst' ∧
      dst'.length = dst.length ∧
      (∀ j, j < chunkStart fr.rawIdx ∨
            min (chunkStart fr.rawIdx + fr.cnt) dst.length ≤ j →
        dst'.getD j Data.zero = dst.getD j Data.zero) ∧
      (∀ j, chunkStart fr.rawIdx ≤ j →
            j < min (chunkStart fr.rawIdx + fr.cnt) dst.length →
        dst'.getD j Data.zero =
          match fr.vals.getD (j - chunkStart fr.rawIdx) none with
          | some q => setField id q (dst.getD j Data.zero)
          | none => dst.getD j Data.zero) := by
  obtain ⟨dst', heq, hlen, hout, hin⟩ :=
    writeVals_spec id (min (chunkStart fr.rawIdx + fr.cnt) dst.length) fr.vals
      (chunkStart fr.rawIdx) dst (by omega) (min_le_right _ _)
  refine ⟨dst', ?_, hlen, hout, hin⟩
  unfold handleChunk
  rw [if_neg (by simp [hparam]), if_neg (by omega)]
  rw [heq]

/-- Witness for C6: a 3-value chunk starting at 0-based slot 2 of a 4-slot
output (start + count = 5 > 4): the last value is dropped, the first two are
written, and the handler succeeds. -/
theorem c6_chunk_clipping_witness :
    ∃ dst', handleChunk paramCO2
        ⟨paramCO2, 3, 3, [some 1, some 2, some 3]⟩
        [Data.zero, Data.zero, Data.zero, Data.zero] = .next dst' ∧
      dst'.length = 4 := by
  obtain ⟨dst', heq, hlen, -, -⟩ :=
    c6_chunk_clipping paramCO2 ⟨paramCO2, 3, 3, [some 1, some 2, some 3]⟩
      [Data.zero, Data.zero, Data.zero, Data.zero] rfl (by decide) (by decide)
  exact ⟨dst', heq, hlen⟩

/-- C8: a streamed frame whose channel id (byte 0) differs from the requested
channel makes that channel's read fail; a zero element count (byte 3)
terminates the stream successfully; and the 1-based little-endian chunk start
index of bytes 1–2 is converted to 0-based. -/
theorem c8_frame_protocol (id : ℕ) (fr : Frame) (dst : List Data) :
    (fr.param ≠ id → handleChunk id fr dst = .fail) ∧
    (fr.param = id → fr.cnt = 0 → handleChunk id fr dst = .done) ∧
    (∀ raw, 1 ≤ raw → raw ≤ 65535 → chunkStart raw = raw - 1) := by
  refine ⟨?_, ?_, ?_⟩
  · intro h
    unfold handleChunk
    rw [if_pos h]
  · intro h1 h2
    unfold handleChunk
    rw [if_neg (by simp [h1]), if_pos h2]
  · intro raw h1 h2
    unfold chunkStart
    omega

/-- Witness for C8: a mismatched channel id fails, a zero count terminates,
and wire index 1 addresses slot 0. -/
theorem c8_frame_protocol_witness :
    handleChunk paramT ⟨paramH, 1, 5, []⟩ [] = .fail ∧
    handleChunk paramT ⟨paramT, 1, 0, []⟩ [] = .done ∧
    chunkStart 1 = 0 := by
  have h1 := c8_frame_protocol paramT ⟨paramH, 1, 5, []⟩ []
  have h2 := c8_frame_protocol paramT ⟨paramT, 1, 0, []⟩ []
  exact ⟨h1.1 (by decide), h2.2.1 rfl rfl, h2.2.2 1 (by decide) (by decide)⟩

/-! ## Record codec lemmas (C7, C2) -/

theorem intToU_lt (w : ℕ) (z : ℤ) : intToU w z < 2 ^ w := by
  unfold intToU
  have hpos : (0 : ℤ) < ((2 ^ w : ℕ) : ℤ) := by positivity
  have := Int.emod_lt_of_pos z hpos
  have h0 := Int.emod_nonneg z (ne_of_gt hpos)
  omega

theorem dec16_le16 (n : ℕ) (h : n < 65536) :
    dec16 (n % 256) (n / 256 % 256) = n := by
  unfold dec16
  omega

theorem dec64_le64 (n : ℕ) (h : n < 18446744073709551616) :
    dec64 (n % 256) (n / 256 % 256) (n / 65536 % 256) (n / 16777216 % 256)
      (n / 4294967296 % 256) (n / 1099511627776 % 256)
      (n / 281474976710656 % 256) (n / 72057594037927936 % 256) = n := by
  unfold dec64
  omega

theorem toSigned64_intToU (sec : ℤ) (h1 : -(2 ^ 63) ≤ sec) (h2 : sec < 2 ^ 63) :
    toSigned64 (intToU 64 sec) = sec := by
  unfold toSigned64 intToU
  have hn : ((2 ^ 64 : ℕ) : ℤ) = 18446744073709551616 := by norm_num
  rw [hn] at *
  have h63 : (2 ^ 63 : ℕ) = 9223372036854775808 := by norm_num
  rw [h63]
  have h63' : (2 ^ 63 : ℤ) = 9223372036854775808 := by norm_num
  rw [h63'] at h2
  have h63'' : (-(2 ^ 63) : ℤ) = -9223372036854775808 := by norm_num
  rw [h63''] at h1
  have hge := Int.emod_nonneg sec (by norm_num : (18446744073709551616 : ℤ) ≠ 0)
  have hlt := Int.emod_lt_of_pos sec (by norm_num : (0 : ℤ) < 18446744073709551616)
  omega

theorem ratToU_natCast (w : ℕ) (k : ℕ) (h : k < 2 ^ w) : ratToU w (k : ℚ) = k := by
  unfold ratToU qTrunc
  rw [if_pos (by positivity), Int.floor_natCast]
  simp [Nat.mod_eq_of_lt h]

theorem unmarshal_short (p : List ℕ) (hp : p.length ≠ 17) :
    unmarshalBinary p = .error .shortBuffer := by
  rcases p with _ | ⟨a0, p⟩; · rfl
  rcases p with _ | ⟨a1, p⟩; · rfl
  rcases p with _ | ⟨a2, p⟩; · rfl
  rcases p with _ | ⟨a3, p⟩; · rfl
  rcases p with _ | ⟨a4, p⟩; · rfl
  rcases p with _ | ⟨a5, p⟩; · rfl
  rcases p with _ | ⟨a6, p⟩; · rfl
  rcases p with _ | ⟨a7, p⟩; · rfl
  rcases p with _ | ⟨a8, p⟩; · rfl
  rcases p with _ | ⟨a9, p⟩; · rfl
  rcases p with _ | ⟨a10, p⟩; · rfl
  rcases p with _ | ⟨a11, p⟩; · rfl
  rcases p with _ | ⟨a12, p⟩; · rfl
  rcases p with _ | ⟨a13, p⟩; · rfl
  rcases p with _ | ⟨a14, p⟩; · rfl
  rcases p with _ | ⟨a15, p⟩; · rfl
  rcases p with _ | ⟨a16, p⟩; · rfl
  rcases p with _ | ⟨a17, p⟩
  · exact absurd rfl hp
  · rfl

theorem unmarshal_ok (p : List ℕ) (hp : p.length = 17) :
    ∃ r, unmarshalBinary p = .ok r := by
  rcases p with _ | ⟨a0, p⟩; · simp at hp
  rcases p with _ | ⟨a1, p⟩; · simp at hp
  rcases p with _ | ⟨a2, p⟩; · simp at hp
  rcases p with _ | ⟨a3, p⟩; · simp at hp
  rcases p with _ | ⟨a4, p⟩; · simp at hp
  rcases p with _ | ⟨a5, p⟩; · simp at hp
  rcases p with _ | ⟨a6, p⟩; · simp at hp
  rcases p with _ | ⟨a7, p⟩; · simp at hp
  rcases p with _ | ⟨a8, p⟩; · simp at hp
  rcases p with _ | ⟨a9, p⟩; · simp at hp
  rcases p with _ | ⟨a10, p⟩; · simp at hp
  rcases p with _ | ⟨a11, p⟩; · simp at hp
  rcases p with _ | ⟨a12, p⟩; · simp at hp
  rcases p with _ | ⟨a13, p⟩; · simp at hp
  rcases p with _ | ⟨a14, p⟩; · simp at hp
  rcases p with _ | ⟨a15, p⟩; · simp at hp
  rcases p with _ | ⟨a16, p⟩; · simp at hp
  rcases p with _ | ⟨a17, p⟩
  · exact ⟨_, rfl⟩
  · simp at hp

/-- C7: the encoder emits exactly 17 bytes with the little-endian layout
Time (unsigned Unix seconds, 8 bytes at offset 0), Humidity (1 byte at 8),
Pressure×10 (2 bytes at 9), Temperature×100 (2 bytes at 11), CO2 (2 bytes at
13), Battery (1 byte at 15), Interval minutes (1 byte at 16); the Quality
field is never written; decoding fails with the short-buffer error exactly
when the buffer length differs from 17. -/
theorem c7_record_layout (d : Data) :
    (marshalBinary d).length = 17 ∧
    ((marshalBinary d).getD 0 0 = intToU 64 (unixSec d.time) % 256 ∧
     (marshalBinary d).getD 1 0 = intToU 64 (unixSec d.time) / 256 % 256 ∧
     (marshalBinary d).getD 2 0 = intToU 64 (unixSec d.time) / 65536 % 256 ∧
     (marshalBinary d).getD 3 0 = intToU 64 (unixSec d.time) / 16777216 % 256 ∧
     (marshalBinary d).getD 4 0 = intToU 64 (unixSec d.time) / 4294967296 % 256 ∧
     (marshalBinary d).getD 5 0 = intToU 64 (unixSec d.time) / 1099511627776 % 256 ∧
     (marshalBinary d).getD 6 0 =
       intToU 64 (unixSec d.time) / 281474976710656 % 256 ∧
     (marshalBinary d).getD 7 0 =
       intToU 64 (unixSec d.time) / 72057594037927936 % 256) ∧
    (marshalBinary d).getD 8 0 = ratToU 8 d.h ∧
    ((marshalBinary d).getD 9 0 = ratToU 16 (d.p * 10) % 256 ∧
     (marshalBinary d).getD 10 0 = ratToU 16 (d.p * 10) / 256 % 256) ∧
    ((marshalBinary d).getD 11 0 = ratToU 16 (d.t * 100) % 256 ∧
     (marshalBinary d).getD 12 0 = ratToU 16 (d.t * 100) / 256 % 256) ∧
    ((marshalBinary d).getD 13 0 = intToU 16 d.co2 % 256 ∧
     (marshalBinary d).getD 14 0 = intToU 16 d.co2 / 256 % 256) ∧
    (marshalBinary d).getD 15 0 = intToU 8 d.battery ∧
    (marshalBinary d).getD 16 0 = ratToU 8 (minutesQ d.interval) ∧
    (∀ q, marshalBinary { d with quality := q } = marshalBinary d) ∧
    (∀ p : List ℕ, p.length ≠ 17 → unmarshalBinary p = .error .shortBuffer) ∧
    (∀ p : List ℕ, p.length = 17 → ∃ r, unmarshalBinary p = .ok r) :=
  ⟨rfl, ⟨rfl, rfl, rfl, rfl, rfl, rfl, rfl, rfl⟩, rfl, ⟨rfl, rfl⟩, ⟨rfl, rfl⟩,
   ⟨rfl, rfl⟩, rfl, rfl, fun _ => rfl, unmarshal_short, unmarshal_ok⟩

/-- Witness for C7: the layout at a concrete sample, a 0-byte buffer failing
to decode, and the concrete encoding decoding successfully. -/
theorem c7_record_layout_witness :
    (marshalBinary exSample).length = 17 ∧
    unmarshalBinary [] = .error .shortBuffer ∧
    ∃ r, unmarshalBinary (marshalBinary exSample) = .ok r := by
  obtain ⟨hlen, -, -, -, -, -, -, -, -, hshort, hok⟩ := c7_record_layout exSample
  exact ⟨hlen, hshort [] (by decide), hok (marshalBinary exSample) hlen⟩

theorem unixSec_of_sec (sec : ℤ) : unixSec (sec * nsPerSec) = sec := by
  unfold unixSec
  exact Int.mul_fdiv_cancel sec (by norm_num [nsPerSec])

/-- C2 (amended: Temperature restricted to the non-negative grid
[0, 327.67] step 0.01): decoding the 17-byte encoding of an in-range sample
reproduces the time, humidity, pressure, temperature, CO2, battery and
interval fields, while Quality is recomputed as `derive(CO2)`. -/
theorem c2_roundtrip_amended (d : Data) (sec : ℤ) (hu pk tk ck bk mk : ℕ)
    (htime : d.time = sec * nsPerSec)
    (hsec1 : -(2 ^ 63) ≤ sec) (hsec2 : sec < 2 ^ 63)
    (hh : d.h = (hu : ℚ)) (hhle : hu ≤ 255)
    (hp : d.p = (pk : ℚ) / 10) (hple : pk ≤ 65535)
    (ht : d.t = (tk : ℚ) / 100) (htle : tk ≤ 65535)
    (hc : d.co2 = (ck : ℤ)) (hcle : ck ≤ 65535)
    (hb : d.battery = (bk : ℤ)) (hble : bk ≤ 255)
    (hi : d.interval = (mk : ℤ) * nsPerMinute) (hile : mk ≤ 255) :
    unmarshalBinary (marshalBinary d) =
      .ok { d with quality := qualityFrom d.co2 } := by
  have hsec : unixSec d.time = sec := by rw [htime, unixSec_of_sec]
  have hH : ratToU 8 d.h = hu := by
    rw [hh]; exact ratToU_natCast 8 hu (by omega)
  have hP : ratToU 16 (d.p * 10) = pk := by
    have : d.p * 10 = (pk : ℚ) := by rw [hp]; field_simp
    rw [this]; exact ratToU_natCast 16 pk (by omega)
  have hT : ratToU 16 (d.t * 100) = tk := by
    have : d.t * 100 = (tk : ℚ) := by rw [ht]; field_simp
    rw [this]; exact ratToU_natCast 16 tk (by omega)
  have hC : intToU 16 d.co2 = ck := by
    rw [hc]; unfold intToU
    simp only [show (2 ^ 16 : ℕ) = 65536 from rfl]
    omega
  have hB : intToU 8 d.battery = bk := by
    rw [hb]; unfold intToU
    simp only [show (2 ^ 8 : ℕ) = 256 from rfl]
    omega
  have hM : ratToU 8 (minutesQ d.interval) = mk := by
    have : minutesQ d.interval = (mk : ℚ) := by
      rw [hi]
      unfold minutesQ
      push_cast
      rw [mul_div_assoc, div_self (by norm_num [nsPerMinute]), mul_one]
    rw [this]; exact ratToU_natCast 8 mk (by omega)
  have hbound : intToU 64 sec < 18446744073709551616 := by
    have := intToU_lt 64 sec
    simpa using this
  show unmarshalBinary
      (le64 (intToU 64 (unixSec d.time)) ++ [ratToU 8 d.h] ++
        le16 (ratToU 16 (d.p * 10)) ++ le16 (ratToU 16 (d.t * 100)) ++
        le16 (intToU 16 d.co2) ++ [intToU 8 d.battery] ++
        [ratToU 8 (minutesQ d.interval)]) = _
  rw [hsec, hH, hP, hT, hC, hB, hM]
  simp only [le64, le16, List.cons_append, List.nil_append, unmarshalBinary]
  rw [dec64_le64 _ hbound, toSigned64_intToU sec hsec1 hsec2,
      dec16_le16 pk (by omega), dec16_le16 tk (by omega), dec16_le16 ck (by omega)]
  simp only [Except.ok.injEq, Data.mk.injEq]
  refine ⟨htime.symm, hc.symm, ht.symm, hp.symm, hh.symm, hb.symm, ?_, hi.symm⟩
  rw [hc]

/-- Witness for C2 at a concrete in-range sample. -/
theorem c2_roundtrip_witness :
    unmarshalBinary (marshalBinary exSample) =
      .ok { exSample with quality := qualityFrom exSample.co2 } := by
  exact c2_roundtrip_amended exSample 1700000000 42 10133 2215 600 95 2
    rfl (by norm_num) (by norm_num) rfl (by norm_num) rfl (by norm_num)
    rfl (by norm_num) rfl (by norm_num) rfl (by norm_num) rfl (by norm_num)

/-- Counterexample for C2 as stated: the claim's temperature range includes
negative values, but the decoder always reconstructs a non-negative
temperature (an unsigned 16-bit field divided by 100), so a sample with
`T = −0.01 °C` — inside the claimed range `[−327.68, 327.67]` — does not
round-trip. -/
theorem c2_roundtrip_counterexample :
    ∃ r, unmarshalBinary (marshalBinary negTSample) = .ok r ∧
      0 ≤ r.t ∧ negTSample.t < 0 ∧ r.t ≠ negTSample.t := by
  refine ⟨_, rfl, by positivity, by norm_num [negTSample], ?_⟩
  exact ne_of_gt
    (lt_of_lt_of_le (show negTSample.t < 0 by norm_num [negTSample]) (by positivity))

/-! ## Association-list lemmas and store basics (C4, C9) -/

theorem alookup_aset_self {α : Type} (l : List (String × α)) (id : String) (v : α) :
    alookup (aset l id v) id = some v := by
  induction l with
  | nil => simp [aset, alookup]
  | cons kv rest ih =>
    obtain ⟨k, w⟩ := kv
    by_cases hk : k = id
    · simp [aset, hk, alookup]
    · simp only [aset, if_neg hk, alookup]
      exact ih

theorem alookup_aset_ne {α : Type} (l : List (String × α)) (id id' : String) (v : α)
    (h : id' ≠ id) : alookup (aset l id v) id' = alookup l id' := by
  induction l with
  | nil =>
    simp only [aset, alookup]
    rw [if_neg (fun hh => h hh.symm)]
  | cons kv rest ih =>
    obtain ⟨k, w⟩ := kv
    by_cases hk : k = id
    · subst hk
      simp only [aset, if_pos rfl, alookup]
      rw [if_neg (fun hh => h hh.symm), if_neg (fun hh => h hh.symm)]
    · simp only [aset, if_neg hk, alookup]
      by_cases hk' : k = id'
      · rw [if_pos hk', if_pos hk']
      · rw [if_neg hk', if_neg hk']
        exact ih

/-- C4 (code bug in the bolt backend): `Data(id, beg, end)` is documented to
yield the half-open interval `[beg, end)` (arabolt.go:192 and db.go:20), and
the sqlite backend implements `time < end`, but arabolt keeps rows with
`Time == end` (`id > end` skip at arabolt.go:223): with one stored sample at
Unix second 100, a query whose exclusive upper bound is 100 still yields that
sample. -/
theorem c4_range_endpoint_bug :
    ∃ row, boltData c4db "dev1" 0 100 = .ok [row] ∧ unixSec row.time = 100 :=
  ⟨_, rfl, rfl⟩

/-- Counterexample for C9 as stated: on the bolt backend, `AddDevice` of an
existing device id succeeds (no DuplicateDevice error) and resets the cached
last sample, so `Last(id)` flips from the stored sample to `ErrNoData`. -/
theorem c9_adddevice_counterexample :
    (boltAddDevice c9bolt "dev1").1 = .ok () ∧
    boltLast c9bolt "dev1" = .ok { atSec 100 with quality := 1 } ∧
    boltLast (boltAddDevice c9bolt "dev1").2 "dev1" = .error .noData ∧
    (boltAddDevice c9bolt "dev1").2.devs = c9bolt.devs := by
  refine ⟨rfl, ?_, ?_, rfl⟩
  · show boltLast c9bolt "dev1" = .ok { atSec 100 with quality := 1 }
    simp [boltLast, c9bolt, c4db, alookup, atSec, Data.zero, goZeroUnix, nsPerSec]
  · show boltLast (boltAddDevice c9bolt "dev1").2 "dev1" = .error .noData
    simp [boltLast, boltAddDevice, c9bolt, c4db, alookup, aset]

/-- C9 (amended): the sqlite backend fulfils the claim — `AddDevice` creates
an empty namespace when absent and fails with DuplicateDevice (leaving the
store untouched) when present. The bolt backend's `AddDevice` never fails:
on an existing id it keeps the stored data but resets the cached last
sample, so a subsequent `Last(id)` reports NoData instead of the stored
maximum. -/
theorem c9_adddevice_amended (bdb : BoltDB) (sdb : SqlDB) (id : String) :
    ((alookup sdb.last id).isSome → sqlAddDevice sdb id = (.error .dupDevice, sdb)) ∧
    (alookup sdb.last id = none →
      (sqlAddDevice sdb id).1 = .ok () ∧
      alookup (sqlAddDevice sdb id).2.devs id = some [] ∧
      sqlLast (sqlAddDevice sdb id).2 id = .error .noData) ∧
    (boltAddDevice bdb id).1 = .ok () ∧
    (alookup bdb.devs id = none →
      alookup (boltAddDevice bdb id).2.devs id = some []) ∧
    (∀ store, alookup bdb.devs id = some store →
      alookup (boltAddDevice bdb id).2.devs id = some store) ∧
    boltLast (boltAddDevice bdb id).2 id = .error .noData := by
  refine ⟨?_, ?_, rfl, ?_, ?_, ?_⟩
  · intro h
    unfold sqlAddDevice
    rw [if_pos h]
  · intro h
    unfold sqlAddDevice
    rw [if_neg (by simp [h])]
    refine ⟨rfl, ?_, ?_⟩
    · exact alookup_aset_self _ _ _
    · unfold sqlLast
      simp [alookup_aset_self]
  · intro h
    unfold boltAddDevice
    simp only [h]
    exact alookup_aset_self _ _ _
  · intro store h
    unfold boltAddDevice
    simp only [h]
  · unfold boltLast boltAddDevice
    simp [alookup_aset_self]

/-- Witness for C9's amended theorem at concrete stores: a duplicate id on
the sqlite backend, and the bolt reset behaviour. -/
theorem c9_adddevice_witness :
    sqlAddDevice ⟨[("dev1", [])], [("dev1", Data.zero)]⟩ "dev1" =
      (.error .dupDevice, ⟨[("dev1", [])], [("dev1", Data.zero)]⟩) ∧
    (boltAddDevice c9bolt "dev1").1 = .ok () ∧
    boltLast (boltAddDevice c9bolt "dev1").2 "dev1" = .error .noData := by
  have hs := c9_adddevice_amended c9bolt ⟨[("dev1", [])], [("dev1", Data.zero)]⟩ "dev1"
  exact ⟨hs.1 (by simp [alookup]), hs.2.2.1, hs.2.2.2.2.2⟩

/-! ## The approximate order and insertion sort (shared by C1, C3) -/

theorem ltApprox_iff (a b : Data) :
    ltApprox a b ↔ unixSec a.time + 5 ≤ unixSec b.time := by
  unfold ltApprox timeResolution
  rw [abs_lt]
  omega

theorem ltApprox_trans {a b c : Data} (h1 : ltApprox a b) (h2 : ltApprox b c) :
    ltApprox a c := by
  rw [ltApprox_iff] at *
  omega

theorem ltApprox_asymm {a b : Data} (h1 : ltApprox a b) (h2 : ltApprox b a) :
    False := by
  rw [ltApprox_iff] at *
  omega

theorem ltApprox_quality_left (v w : Data) (q : ℤ) :
    ltApprox { v with quality := q } w ↔ ltApprox v w := Iff.rfl

/-- One Go insertion step is a permutation: it only relocates `x`. -/
theorem goInsertRev_perm (lt : Data → Data → Prop) [DecidableRel lt]
    (x : Data) (r : List Data) : List.Perm (goInsertRev lt x r) (x :: r) := by
  induction r with
  | nil => exact List.Perm.refl _
  | cons y rest ih =>
    unfold goInsertRev
    by_cases h : lt x y
    · rw [if_pos h]
      exact (ih.cons y).trans (List.Perm.swap x y rest)
    · rw [if_neg h]

/-- The insertion fold permutes the input onto the accumulator. -/
theorem goFold_perm (lt : Data → Data → Prop) [DecidableRel lt] :
    ∀ (l acc : List Data),
      List.Perm (l.foldl (fun r x => goInsertRev lt x r) acc) (l ++ acc) := by
  intro l
  induction l with
  | nil => intro acc; simp
  | cons x rest ih =>
    intro acc
    rw [List.foldl_cons]
    refine ((ih (goInsertRev lt x acc)).trans ?_)
    refine (List.Perm.append_left rest (goInsertRev_perm lt x acc)).trans ?_
    exact List.perm_middle

/-- Go's sort permutes its input. -/
theorem goSort_perm (lt : Data → Data → Prop) [DecidableRel lt]
    (vs : List Data) : List.Perm (goSort lt vs) vs := by
  unfold goSort
  refine (List.reverse_perm _).trans ?_
  have := goFold_perm lt vs []
  simpa using this

theorem goInsertRev_mem (lt : Data → Data → Prop) [DecidableRel lt]
    (x : Data) (r : List Data) (z : Data) :
    z ∈ goInsertRev lt x r ↔ z = x ∨ z ∈ r := by
  rw [(goInsertRev_perm lt x r).mem_iff, List.mem_cons]

/-- Inserting an element comparable with every accumulator element keeps the
reversed accumulator strictly descending. -/
theorem goInsertRev_flip (x : Data) (r : List Data)
    (hr : r.Pairwise fun a b => ltApprox b a)
    (hcomp : ∀ y ∈ r, ltApprox x y ∨ ltApprox y x) :
    (goInsertRev ltApprox x r).Pairwise fun a b => ltApprox b a := by
  induction r with
  | nil => simp [goInsertRev]
  | cons y rest ih =>
    obtain ⟨hy, hrest⟩ := List.pairwise_cons.mp hr
    unfold goInsertRev
    by_cases h : ltApprox x y
    · rw [if_pos h]
      refine List.pairwise_cons.mpr
        ⟨?_, ih hrest fun z hz => hcomp z (List.mem_cons_of_mem _ hz)⟩
      intro z hz
      rcases (goInsertRev_mem ltApprox x rest z).mp hz with heq | hz'
      · rw [heq]; exact h
      · exact hy z hz'
    · rw [if_neg h]
      have hyx : ltApprox y x :=
        (hcomp y (List.mem_cons_self y rest)).resolve_left h
      refine List.pairwise_cons.mpr ⟨?_, hr⟩
      intro z hz
      rcases List.mem_cons.mp hz with heq | hz'
      · rw [heq]; exact hyx
      · exact ltApprox_trans (hy z hz') hyx

/-- The insertion fold keeps the reversed accumulator strictly descending
when all pending elements are pairwise comparable and comparable with the
accumulator. -/
theorem goFold_flip :
    ∀ (l acc : List Data),
      acc.Pairwise (fun a b => ltApprox b a) →
      (∀ x ∈ l, ∀ y ∈ acc, ltApprox x y ∨ ltApprox y x) →
      l.Pairwise (fun a b => ltApprox a b ∨ ltApprox b a) →
      (l.foldl (fun r x => goInsertRev ltApprox x r) acc).Pairwise
        fun a b => ltApprox b a := by
  intro l
  induction l with
  | nil => intro acc hacc _ _; exact hacc
  | cons x rest ih =>
    intro acc hacc hcomp hl
    obtain ⟨hx, hrest⟩ := List.pairwise_cons.mp hl
    rw [List.foldl_cons]
    refine ih (goInsertRev ltApprox x acc)
      (goInsertRev_flip x acc hacc fun y hy =>
        hcomp x (List.mem_cons_self x rest) y hy) ?_ hrest
    intro z hz y hy
    rcases (goInsertRev_mem ltApprox x acc y).mp hy with heq | hy'
    · rw [heq]; exact (hx z hz).symm
    · exact hcomp z (List.mem_cons_of_mem _ hz) y hy'

/-- On a batch whose samples are pairwise comparable (more than the tolerance
apart), Go's sort yields a strictly ascending, tolerance-separated list. -/
theorem goSort_sorted_of_separated (l : List Data)
    (hsep : l.Pairwise fun a b => ltApprox a b ∨ ltApprox b a) :
    (goSort ltApprox l).Pairwise ltApprox := by
  unfold goSort
  rw [List.pairwise_reverse]
  exact goFold_flip l [] (by simp) (by simp) hsep

/-- When the new element is after (or incomparable with) every accumulator
element, Go's insertion leaves it at the end: one comparison, no movement. -/
theorem goInsertRev_of_not_lt (x : Data) (r : List Data)
    (h : ∀ y ∈ r, ¬ ltApprox x y) : goInsertRev ltApprox x r = x :: r := by
  cases r with
  | nil => rfl
  | cons y rest =>
    unfold goInsertRev
    rw [if_neg (h y (List.mem_cons_self y rest))]

/-- On an already strictly ascending list the insertion fold is just
`reverse`: no element ever moves. -/
theorem goFold_eq_reverse :
    ∀ (l acc : List Data),
      l.Pairwise ltApprox →
      (∀ x ∈ l, ∀ y ∈ acc, ¬ ltApprox x y) →
      l.foldl (fun r x => goInsertRev ltApprox x r) acc = l.reverse ++ acc := by
  intro l
  induction l with
  | nil => intro acc _ _; simp
  | cons x rest ih =>
    intro acc hl hacc
    obtain ⟨hx, hrest⟩ := List.pairwise_cons.mp hl
    rw [List.foldl_cons,
      goInsertRev_of_not_lt x acc (hacc x (List.mem_cons_self x rest)),
      ih (x :: acc) hrest ?_]
    · simp
    · intro z hz y hy
      rcases List.mem_cons.mp hy with heq | hy'
      · rw [heq]; exact fun hcon => ltApprox_asymm (hx z hz) hcon
      · exact hacc z (List.mem_cons_of_mem _ hz) y hy'

/-- Go's sort leaves a strictly ascending list unchanged. -/
theorem goSort_of_sorted (l : List Data) (h : l.Pairwise ltApprox) :
    goSort ltApprox l = l := by
  unfold goSort
  rw [goFold_eq_reverse l [] h (by simp)]
  simp

/-! ## Bolt `PutData` idempotence (C3) -/

theorem boltWriteLoop_eq (last0 : Data) (vs : List Data)
    (store : List (ℕ × List ℕ)) (cache : Data) :
    boltWriteLoop last0 vs store cache =
      (vs.foldl (fun st v => putKV st (boltKey v) (marshalBinary v)) store,
       vs.foldl (fun c v =>
         if ltApprox last0 v then { v with quality := qualityFrom v.co2 } else c)
         cache) := by
  induction vs generalizing store cache with
  | nil => rfl
  | cons v rest ih =>
    unfold boltWriteLoop at *
    simp only [List.foldl_cons]
    rw [ih]

/-- Decomposition of the cache-update fold: either no sample is strictly
after `last0` and the cache is unchanged, or the fold returns the last such
sample (with its quality recomputed), and no later sample is strictly after
`last0`. -/
theorem foldl_update_spec (last0 : Data) (l : List Data) (cache : Data) :
    (l.foldl (fun c v =>
        if ltApprox last0 v then { v with quality := qualityFrom v.co2 } else c)
      cache = cache ∧ ∀ v ∈ l, ¬ ltApprox last0 v) ∨
    (∃ l1 v l2, l = l1 ++ v :: l2 ∧ ltApprox last0 v ∧
      (∀ w ∈ l2, ¬ ltApprox last0 w) ∧
      l.foldl (fun c v =>
        if ltApprox last0 v then { v with quality := qualityFrom v.co2 } else c)
        cache = { v with quality := qualityFrom v.co2 }) := by
  induction l using List.reverseRecOn with
  | nil => exact Or.inl ⟨rfl, by simp⟩
  | append_singleton l x ih =>
    rw [List.foldl_append]
    by_cases hx : ltApprox last0 x
    · refine Or.inr ⟨l, x, [], rfl, hx, by simp, ?_⟩
      simp [hx]
    · rcases ih with ⟨heq, hall⟩ | ⟨l1, v, l2, hdec, hv, hl2, heq⟩
      · refine Or.inl ⟨?_, ?_⟩
        · simp only [List.foldl_cons, List.foldl_nil, if_neg hx, heq]
        · intro v hv
          rcases List.mem_append.mp hv with h | h
          · exact hall v h
          · rw [List.mem_singleton.mp h]
            exact hx
      · refine Or.inr ⟨l1, v, l2 ++ [x], by rw [hdec]; simp, hv, ?_, ?_⟩
        · intro w hw
          rcases List.mem_append.mp hw with h | h
          · exact hl2 w h
          · rw [List.mem_singleton.mp h]
            exact hx
        · simp only [List.foldl_cons, List.foldl_nil, if_neg hx, heq]

/-- Every element of the prefix dropped by `findIdx` fails the predicate. -/
theorem take_findIdx_false (p : Data → Bool) :
    ∀ (l : List Data), ∀ w ∈ l.take (l.findIdx p), p w = false := by
  intro l
  induction l with
  | nil => simp
  | cons x xs ih =>
    rw [List.findIdx_cons]
    cases hx : p x
    · simp only [cond_false, List.take_succ_cons]
      intro w hw
      rcases List.mem_cons.mp hw with rfl | hw
      · exact hx
      · exact ih w hw
    · simp [cond_true]

/-- After the write loop of one bolt `PutData`, no sample of the sorted batch
is strictly after the updated cached last sample — the chief ingredient of
idempotence. `S` is the sorted batch; the fold below is the cache-update part
of the write transaction, applied to the suffix kept after the prefix drop. -/
theorem foldl_update_no_rewrite (cached : Data) (S : List Data)
    (hnon : S.Pairwise fun a b => ¬ ltApprox b a) :
    ∀ w ∈ S,
      ¬ ltApprox
        ((S.drop (S.findIdx fun v => decide (ltApprox cached v))).foldl
          (fun c v =>
            if ltApprox cached v then { v with quality := qualityFrom v.co2 } else c)
          cached)
        w := by
  intro w hw
  have hsplit : S.take (S.findIdx fun v => decide (ltApprox cached v)) ++
      S.drop (S.findIdx fun v => decide (ltApprox cached v)) = S :=
    List.take_append_drop _ S
  have hw' : w ∈ S.take (S.findIdx fun v => decide (ltApprox cached v)) ++
      S.drop (S.findIdx fun v => decide (ltApprox cached v)) := by
    rw [hsplit]; exact hw
  have hpre : ∀ u ∈ S.take (S.findIdx fun v => decide (ltApprox cached v)),
      ¬ ltApprox cached u := by
    intro u hu
    have := take_findIdx_false (fun v => decide (ltApprox cached v)) S u hu
    simpa using this
  rcases foldl_update_spec cached
      (S.drop (S.findIdx fun v => decide (ltApprox cached v))) cached with
    ⟨heq, hall⟩ | ⟨l1, v, l2, hdec, hv, hl2, heq⟩
  · rw [heq]
    intro hcon
    rcases List.mem_append.mp hw' with h | h
    · exact hpre w h hcon
    · exact hall w h hcon
  · rw [heq, ltApprox_quality_left]
    intro hcon
    rcases List.mem_append.mp hw' with h | h
    · exact hpre w h (ltApprox_trans hv hcon)
    · rw [hdec] at h
      rcases List.mem_append.mp h with h1 | h2
      · have hdroppw : (S.drop (S.findIdx fun v => decide (ltApprox cached v)))
            |>.Pairwise (fun a b => ¬ ltApprox b a) :=
          hnon.sublist (List.drop_sublist _ S)
        rw [hdec] at hdroppw
        obtain ⟨-, -, hcross⟩ := List.pairwise_append.mp hdroppw
        exact hcross w h1 v (List.mem_cons_self v l2) hcon
      · rcases List.mem_cons.mp h2 with rfl | h2
        · exact ltApprox_asymm hcon hcon
        · exact hl2 w h2 (ltApprox_trans hv hcon)

/-- A `PutData` whose batch holds no sample strictly after the cached last
sample writes nothing and leaves the store untouched. -/
theorem boltPutData_of_no_after (db : BoltDB) (id : String) (vs : List Data)
    (cached : Data) (hlast : alookup db.last id = some cached)
    (hnone : ∀ w ∈ goSort ltApprox vs, ¬ ltApprox cached w) :
    boltPutData db id vs = (.ok (), db) := by
  unfold boltPutData
  rw [hlast]
  have hidx : (goSort ltApprox vs).findIdx
      (fun v => decide (ltApprox cached v)) =
      (goSort ltApprox vs).length :=
    List.findIdx_eq_length.mpr fun x hx => decide_eq_false (hnone x hx)
  simp only [hidx, List.drop_length, List.isEmpty_nil, if_true]

/-- Idempotence of bolt `PutData` on a tolerance-separated batch: a
successful call followed by an identical call leaves the whole store state
unchanged, and the second call succeeds. The separation hypothesis is
essential: with in-batch near-duplicates the sorted batch can contain an
inversion (e.g. `[8s,4s,0s]` is left as-is, with 0s after 8s), the cache
then ends on a non-maximal written sample, and the second call advances
it. -/
theorem bolt_put_idempotent_sep (db : BoltDB) (id : String) (vs : List Data)
    (hsep : vs.Pairwise fun a b => ltApprox a b ∨ ltApprox b a)
    (hok : (boltPutData db id vs).1 = .ok ()) :
    boltPutData (boltPutData db id vs).2 id vs =
      (.ok (), (boltPutData db id vs).2) := by
  rcases hlast : alookup db.last id with _ | cached
  · have h1 : boltPutData db id vs = (.error .noSuchDevice, db) := by
      unfold boltPutData; rw [hlast]
    rw [h1] at hok
    simp at hok
  by_cases hkeep : ((goSort ltApprox vs).drop
      ((goSort ltApprox vs).findIdx fun v =>
        decide (ltApprox cached v))).isEmpty = true
  · have h1 : boltPutData db id vs = (.ok (), db) := by
      unfold boltPutData
      rw [hlast]
      simp only [hkeep, if_true]
    rw [h1]
    exact h1
  · rcases hdev : alookup db.devs id with _ | store
    · have h1 : boltPutData db id vs = (.error .noBucket, db) := by
        unfold boltPutData
        rw [hlast]
        simp only [hkeep, hdev]
        simp
      rw [h1] at hok
      simp at hok
    · have h1 : boltPutData db id vs =
          (.ok (),
           { devs := aset db.devs id
               (boltWriteLoop cached
                 ((goSort ltApprox vs).drop
                   ((goSort ltApprox vs).findIdx fun v =>
                     decide (ltApprox cached v))) store cached).1
           , last := aset db.last id
               (boltWriteLoop cached
                 ((goSort ltApprox vs).drop
                   ((goSort ltApprox vs).findIdx fun v =>
                     decide (ltApprox cached v))) store cached).2 }) := by
        unfold boltPutData
        rw [hlast]
        simp only [hkeep, hdev]
        simp
      rw [h1]
      have hnone : ∀ w ∈ goSort ltApprox vs,
          ¬ ltApprox (boltWriteLoop cached
            ((goSort ltApprox vs).drop
              ((goSort ltApprox vs).findIdx fun v =>
                decide (ltApprox cached v))) store cached).2 w := by
        rw [boltWriteLoop_eq]
        exact foldl_update_no_rewrite cached (goSort ltApprox vs)
          ((goSort_sorted_of_separated vs hsep).imp
            fun hab hcon => ltApprox_asymm hab hcon)
      exact boltPutData_of_no_after _ id vs _ (alookup_aset_self _ _ _) hnone

/-! ## Sqlite `PutData` under repetition (C3) -/

theorem tblLookup_isSome_tblInsert (t : List (ℤ × SqlRow)) (k k' : ℤ) (r : SqlRow)
    (h : (tblLookup t k).isSome) : (tblLookup (tblInsert t k' r) k).isSome := by
  induction t with
  | nil => simp [tblLookup] at h
  | cons kv rest ih =>
    obtain ⟨k0, r0⟩ := kv
    unfold tblInsert
    by_cases hlt : k' < k0
    · rw [if_pos hlt]
      unfold tblLookup
      by_cases hk : k' = k
      · rw [if_pos hk]; simp
      · rw [if_neg hk]; exact h
    · rw [if_neg hlt]
      unfold tblLookup at h ⊢
      by_cases hk : k0 = k
      · rw [if_pos hk]; simp
      · rw [if_neg hk] at h ⊢
        exact ih h

theorem tblLookup_tblInsert_self (t : List (ℤ × SqlRow)) (k : ℤ) (r : SqlRow) :
    tblLookup t k = none → (tblLookup (tblInsert t k r) k).isSome := by
  induction t with
  | nil =>
    intro _
    simp [tblInsert, tblLookup]
  | cons kv rest ih =>
    intro hnone
    obtain ⟨k0, r0⟩ := kv
    unfold tblLookup at hnone
    by_cases hk : k0 = k
    · rw [if_pos hk] at hnone; cases hnone
    · rw [if_neg hk] at hnone
      unfold tblInsert
      by_cases hlt : k < k0
      · rw [if_pos hlt]
        unfold tblLookup
        rw [if_pos rfl]
        simp
      · rw [if_neg hlt]
        unfold tblLookup
        rw [if_neg hk]
        exact ih hnone

theorem sqlInsertLoop_preserves (id : String) (last0 : Data) :
    ∀ (l : List Data) (tbl : List (ℤ × SqlRow)) (lm : List (String × Data)) (k : ℤ),
      (tblLookup tbl k).isSome →
      (tblLookup (sqlInsertLoop id last0 l tbl lm).2.1 k).isSome := by
  intro l
  induction l with
  | nil => intro tbl lm k h; exact h
  | cons v rest ih =>
    intro tbl lm k h
    unfold sqlInsertLoop
    by_cases hdup : (tblLookup tbl (unixSec v.time)).isSome
    · rw [if_pos hdup]; exact h
    · rw [if_neg hdup]
      exact ih _ _ k (tblLookup_isSome_tblInsert _ _ _ _ h)

theorem sqlInsertLoop_ok_mem (id : String) (last0 : Data) :
    ∀ (l : List Data) (tbl : List (ℤ × SqlRow)) (lm : List (String × Data)),
      (sqlInsertLoop id last0 l tbl lm).1 = none →
      ∀ v ∈ l, (tblLookup (sqlInsertLoop id last0 l tbl lm).2.1
        (unixSec v.time)).isSome := by
  intro l
  induction l with
  | nil => intro tbl lm _ v hv; simp at hv
  | cons w rest ih =>
    intro tbl lm h v hv
    unfold sqlInsertLoop at h ⊢
    by_cases hdup : (tblLookup tbl (unixSec w.time)).isSome
    · rw [if_pos hdup] at h; simp at h
    · rw [if_neg hdup] at h ⊢
      rcases List.mem_cons.mp hv with rfl | hv
      · exact sqlInsertLoop_preserves id last0 rest _ _ _
          (tblLookup_tblInsert_self tbl _ _
            (Option.not_isSome_iff_eq_none.mp hdup))
      · exact ih _ _ h v hv

theorem sqlInsertLoop_last_isSome (id : String) (last0 : Data) :
    ∀ (l : List Data) (tbl : List (ℤ × SqlRow)) (lm : List (String × Data)),
      (alookup lm id).isSome →
      (alookup (sqlInsertLoop id last0 l tbl lm).2.2 id).isSome := by
  intro l
  induction l with
  | nil => intro tbl lm h; exact h
  | cons v rest ih =>
    intro tbl lm h
    unfold sqlInsertLoop
    by_cases hdup : (tblLookup tbl (unixSec v.time)).isSome
    · rw [if_pos hdup]; exact h
    · rw [if_neg hdup]
      by_cases hbef : timeBefore last0 v
      · simp only [if_pos hbef]
        exact ih _ _ (by rw [alookup_aset_self]; rfl)
      · simp only [if_neg hbef]
        exact ih _ _ h

/-- Re-submitting an identical nonempty batch to the sqlite backend fails
with the primary-key constraint error, rolling the table back and leaving
the cached last samples untouched — the resulting state is exactly the state
after the first call. -/
theorem sql_second_put (db : SqlDB) (id : String) (vs : List Data)
    (hne : vs ≠ []) (hok : (sqlPutData db id vs).1 = .ok ()) :
    sqlPutData (sqlPutData db id vs).2 id vs =
      (.error .constraint, (sqlPutData db id vs).2) := by
  rcases hlast : alookup db.last id with _ | last0
  · have h1 : sqlPutData db id vs = (.error .noSuchDevice, db) := by
      unfold sqlPutData; rw [hlast]
    rw [h1] at hok
    simp at hok
  rcases hdev : alookup db.devs id with _ | tbl
  · have h1 : sqlPutData db id vs = (.error .noBucket, db) := by
      unfold sqlPutData; rw [hlast]; simp only [hdev]
    rw [h1] at hok
    simp at hok
  rcases hloop : sqlInsertLoop id last0 (goSort timeBefore vs) tbl db.last
    with ⟨err, tbl', lm'⟩
  cases err with
  | some e =>
    have h1 : sqlPutData db id vs = (.error e, { devs := db.devs, last := lm' }) := by
      unfold sqlPutData; rw [hlast]; simp only [hdev, hloop]
    rw [h1] at hok
    simp at hok
  | none =>
    have h1 : sqlPutData db id vs =
        (.ok (), { devs := aset db.devs id tbl', last := lm' }) := by
      unfold sqlPutData; rw [hlast]; simp only [hdev, hloop]
    rw [h1]
    obtain ⟨w, rest, hwrest⟩ : ∃ w rest,
        goSort timeBefore vs = w :: rest := by
      cases hS : goSort timeBefore vs with
      | nil =>
        exfalso
        have := (goSort_perm timeBefore vs).length_eq
        rw [hS] at this
        exact hne (List.length_eq_zero.mp this.symm)
      | cons w rest => exact ⟨w, rest, rfl⟩
    have hlast2 : (alookup lm' id).isSome := by
      have := sqlInsertLoop_last_isSome id last0
        (goSort timeBefore vs) tbl db.last (by rw [hlast]; rfl)
      rw [hloop] at this
      exact this
    obtain ⟨last1, hlast1⟩ := Option.isSome_iff_exists.mp hlast2
    have hdup : (tblLookup tbl' (unixSec w.time)).isSome := by
      have := sqlInsertLoop_ok_mem id last0
        (goSort timeBefore vs) tbl db.last
        (by rw [hloop]) w (by rw [hwrest]; exact List.mem_cons_self w rest)
      rw [hloop] at this
      exact this
    show sqlPutData { devs := aset db.devs id tbl', last := lm' } id vs = _
    unfold sqlPutData
    simp only [hlast1, alookup_aset_self, hwrest]
    unfold sqlInsertLoop
    rw [if_pos hdup]

/-- C3 (amended): on the bolt backend, for a batch whose samples are
pairwise more than the 5-second tolerance apart, a second identical
`PutData` succeeds and leaves the whole store state — hence every `Data`
range query and `Last` — unchanged (for batches with in-batch
near-duplicates even the bolt backend can move the cached last sample on
the second call); on the sqlite backend, whose `PutData` inserts every
sample unconditionally into a table keyed by time, the second call of a
nonempty batch instead fails with the primary-key constraint error, rolling
back the transaction and leaving the state unchanged. -/
theorem c3_idempotent_amended (bdb : BoltDB) (sdb : SqlDB) (id : String)
    (vs : List Data)
    (hsep : vs.Pairwise fun a b => ltApprox a b ∨ ltApprox b a)
    (hball : (boltPutData bdb id vs).1 = .ok ())
    (hsok : (sqlPutData sdb id vs).1 = .ok ()) (hne : vs ≠ []) :
    boltPutData (boltPutData bdb id vs).2 id vs =
      (.ok (), (boltPutData bdb id vs).2) ∧
    sqlPutData (sqlPutData sdb id vs).2 id vs =
      (.error .constraint, (sqlPutData sdb id vs).2) :=
  ⟨bolt_put_idempotent_sep bdb id vs hsep hball, sql_second_put sdb id vs hne hsok⟩

/-- Witness for C3's amended theorem at a concrete store and batch. -/
theorem c3_idempotent_witness :
    boltPutData (boltPutData boltDB1 "dev1" [atSec 100]).2 "dev1" [atSec 100] =
      (.ok (), (boltPutData boltDB1 "dev1" [atSec 100]).2) ∧
    sqlPutData (sqlPutData sqlDB1 "dev1" [atSec 100]).2 "dev1" [atSec 100] =
      (.error .constraint, (sqlPutData sqlDB1 "dev1" [atSec 100]).2) :=
  c3_idempotent_amended boltDB1 sqlDB1 "dev1" [atSec 100] (by simp) rfl rfl
    (by simp)

/-- Counterexample for C3 as stated, on both backends. Sqlite: the second
identical `PutData` does not succeed — it returns the uniqueness-constraint
error (the table's `time` column is the primary key and every sample is
re-inserted unconditionally). Bolt: for the batch `[8s, 4s, 0s]` into a
fresh namespace the sort leaves the near-duplicates in input order (each is
within 5 s of its neighbour, so `less` never fires), the cache-advance loop
ends on the 0 s sample, and the second identical call — whose skip check
compares against that cached 0 s sample — moves `Last` to the 8 s sample:
the state is not unchanged. -/
theorem c3_idempotent_counterexample :
    ((sqlPutData sqlDB1 "dev1" [atSec 100]).1 = .ok () ∧
     (sqlPutData (sqlPutData sqlDB1 "dev1" [atSec 100]).2 "dev1"
       [atSec 100]).1 = .error .constraint) ∧
    ((boltPutData boltDB1 "dev1" [atSec 8, atSec 4, atSec 0]).1 = .ok () ∧
     (∃ l1, boltLast
         (boltPutData boltDB1 "dev1" [atSec 8, atSec 4, atSec 0]).2 "dev1" =
           .ok l1 ∧ unixSec l1.time = 0) ∧
     (boltPutData (boltPutData boltDB1 "dev1" [atSec 8, atSec 4, atSec 0]).2
       "dev1" [atSec 8, atSec 4, atSec 0]).1 = .ok () ∧
     ∃ l2, boltLast
         (boltPutData (boltPutData boltDB1 "dev1"
           [atSec 8, atSec 4, atSec 0]).2 "dev1"
           [atSec 8, atSec 4, atSec 0]).2 "dev1" =
           .ok l2 ∧ unixSec l2.time = 8) :=
  ⟨⟨rfl, rfl⟩, rfl, ⟨_, rfl, rfl⟩, rfl, _, rfl, rfl⟩

/-! ## Bolt `PutData` monotone-append machinery (C1) -/

theorem boltKey_eq (d : Data) (h0 : 0 ≤ unixSec d.time)
    (h1 : unixSec d.time < 2 ^ 63) : (boltKey d : ℤ) = unixSec d.time := by
  unfold boltKey intToU
  have hn : ((2 ^ 64 : ℕ) : ℤ) = 18446744073709551616 := by norm_num
  have h63 : (2 ^ 63 : ℤ) = 9223372036854775808 := by norm_num
  rw [h63] at h1
  have hge := Int.emod_nonneg (unixSec d.time)
    (show ((2 ^ 64 : ℕ) : ℤ) ≠ 0 by rw [hn]; norm_num)
  have hlt := Int.emod_lt_of_pos (unixSec d.time)
    (show (0 : ℤ) < ((2 ^ 64 : ℕ) : ℤ) by rw [hn]; norm_num)
  rw [hn] at hge hlt
  omega

theorem unmarshal_marshal_time (d : Data) :
    ∃ r, unmarshalBinary (marshalBinary d) = .ok r ∧
      r.time = toSigned64 (intToU 64 (unixSec d.time)) * nsPerSec := by
  refine ⟨_, rfl, ?_⟩
  show toSigned64 (dec64 (intToU 64 (unixSec d.time) % 256)
    (intToU 64 (unixSec d.time) / 256 % 256)
    (intToU 64 (unixSec d.time) / 65536 % 256)
    (intToU 64 (unixSec d.time) / 16777216 % 256)
    (intToU 64 (unixSec d.time) / 4294967296 % 256)
    (intToU 64 (unixSec d.time) / 1099511627776 % 256)
    (intToU 64 (unixSec d.time) / 281474976710656 % 256)
    (intToU 64 (unixSec d.time) / 72057594037927936 % 256)) * nsPerSec = _
  rw [dec64_le64 _ (by simpa using intToU_lt 64 (unixSec d.time))]

/-- Marshalling a sample with a representable non-negative time produces a
well-formed record for its bucket key. -/
theorem recOK_marshal (d : Data) (h0 : 0 ≤ unixSec d.time)
    (h1 : unixSec d.time < 2 ^ 63) : recOK (boltKey d, marshalBinary d) := by
  obtain ⟨r, hr, hrt⟩ := unmarshal_marshal_time d
  refine ⟨r, hr, ?_⟩
  show unixSec r.time = (boltKey d : ℤ)
  rw [hrt, boltKey_eq d h0 h1, toSigned64_intToU _ (by omega) h1,
    unixSec_of_sec]

/-- On a sorted batch, the suffix kept after the `findIdx` prefix drop is
exactly the set of samples strictly after the cached last sample. -/
theorem drop_findIdx_eq_filter (cached : Data) :
    ∀ (S : List Data), S.Pairwise ltApprox →
      S.drop (S.findIdx fun v => decide (ltApprox cached v)) =
        S.filter fun v => decide (ltApprox cached v) := by
  intro S
  induction S with
  | nil => simp
  | cons x xs ih =>
    intro hpw
    obtain ⟨hx, hxs⟩ := List.pairwise_cons.mp hpw
    rw [List.findIdx_cons]
    cases hpx : decide (ltApprox cached x)
    · simp only [cond_false, List.drop_succ_cons, List.filter_cons, hpx,
        Bool.false_eq_true, if_false]
      exact ih hxs
    · simp only [cond_true, List.drop_zero, List.filter_cons, hpx, if_true]
      rw [List.filter_eq_self.mpr]
      intro a ha
      exact decide_eq_true (ltApprox_trans (of_decide_eq_true hpx) (hx a ha))

theorem putKV_mem (st : List (ℕ × List ℕ)) (k : ℕ) (v : List ℕ) :
    ∀ kv ∈ putKV st k v, kv ∈ st ∨ kv = (k, v) := by
  induction st with
  | nil =>
    intro kv hkv
    simp [putKV] at hkv
    simp [hkv]
  | cons kv0 rest ih =>
    intro kv hkv
    obtain ⟨k0, v0⟩ := kv0
    unfold putKV at hkv
    by_cases h1 : k < k0
    · rw [if_pos h1] at hkv
      rcases List.mem_cons.mp hkv with rfl | hkv
      · exact Or.inr rfl
      · exact Or.inl hkv
    · rw [if_neg h1] at hkv
      by_cases h2 : k = k0
      · rw [if_pos h2] at hkv
        rcases List.mem_cons.mp hkv with rfl | hkv
        · exact Or.inr rfl
        · exact Or.inl (List.mem_cons_of_mem _ hkv)
      · rw [if_neg h2] at hkv
        rcases List.mem_cons.mp hkv with rfl | hkv
        · exact Or.inl (List.mem_cons_self _ _)
        · rcases ih kv hkv with h | h
          · exact Or.inl (List.mem_cons_of_mem _ h)
          · exact Or.inr h

theorem putKV_keeps_key (k : ℕ) (v : List ℕ) :
    ∀ (st : List (ℕ × List ℕ)) (kv : ℕ × List ℕ), kv ∈ st →
      ∃ kv' ∈ putKV st k v, kv'.1 = kv.1 := by
  intro st
  induction st with
  | nil => intro kv hkv; simp at hkv
  | cons kv0 rest ih =>
    intro kv hkv
    obtain ⟨k0, v0⟩ := kv0
    unfold putKV
    by_cases h1 : k < k0
    · rw [if_pos h1]
      exact ⟨kv, List.mem_cons_of_mem _ hkv, rfl⟩
    · by_cases h2 : k = k0
      · rw [if_neg h1, if_pos h2]
        rcases List.mem_cons.mp hkv with heq | hkv'
        · exact ⟨(k, v), List.mem_cons_self _ _, by rw [heq]; exact h2⟩
        · exact ⟨kv, List.mem_cons_of_mem _ hkv', rfl⟩
      · rw [if_neg h1, if_neg h2]
        rcases List.mem_cons.mp hkv with heq | hkv'
        · exact ⟨(k0, v0), List.mem_cons_self _ _, by rw [heq]⟩
        · obtain ⟨kv', hkv', hk'⟩ := ih kv hkv'
          exact ⟨kv', List.mem_cons_of_mem _ hkv', hk'⟩

theorem putKV_new_key (k : ℕ) (v : List ℕ) :
    ∀ (st : List (ℕ × List ℕ)), ∃ kv' ∈ putKV st k v, kv'.1 = k := by
  intro st
  induction st with
  | nil => exact ⟨(k, v), by simp [putKV], rfl⟩
  | cons kv0 rest ih =>
    obtain ⟨k0, v0⟩ := kv0
    unfold putKV
    by_cases h1 : k < k0
    · rw [if_pos h1]
      exact ⟨(k, v), List.mem_cons_self _ _, rfl⟩
    · by_cases h2 : k = k0
      · rw [if_neg h1, if_pos h2]
        exact ⟨(k, v), List.mem_cons_self _ _, rfl⟩
      · rw [if_neg h1, if_neg h2]
        obtain ⟨kv', hkv', hk'⟩ := ih
        exact ⟨kv', List.mem_cons_of_mem _ hkv', hk'⟩

theorem putKV_mem_keys (st : List (ℕ × List ℕ)) (k : ℕ) (v : List ℕ) (k' : ℕ) :
    (∃ kv ∈ putKV st k v, kv.1 = k') ↔ (∃ kv ∈ st, kv.1 = k') ∨ k' = k := by
  constructor
  · rintro ⟨kv, hkv, hk⟩
    rcases putKV_mem st k v kv hkv with h | heq
    · exact Or.inl ⟨kv, h, hk⟩
    · refine Or.inr ?_
      rw [← hk, heq]
  · rintro (⟨kv, hkv, hk⟩ | hk)
    · obtain ⟨kv', hkv', hk'⟩ := putKV_keeps_key k v st kv hkv
      exact ⟨kv', hkv', by rw [hk', hk]⟩
    · obtain ⟨kv', hkv', hk'⟩ := putKV_new_key k v st
      exact ⟨kv', hkv', by rw [hk', hk]⟩

theorem putKV_sep (st : List (ℕ × List ℕ)) (k : ℕ) (v : List ℕ)
    (hsep : keySep st) (hgap : ∀ kv ∈ st, kv.1 + 5 ≤ k) :
    keySep (putKV st k v) := by
  induction st with
  | nil => simp [putKV, keySep]
  | cons kv0 rest ih =>
    obtain ⟨k0, v0⟩ := kv0
    obtain ⟨hhead, htail⟩ := List.pairwise_cons.mp hsep
    have hk0 : k0 + 5 ≤ k := hgap (k0, v0) (List.mem_cons_self _ _)
    unfold putKV
    rw [if_neg (by omega), if_neg (by omega)]
    refine List.pairwise_cons.mpr ⟨?_, ih htail
      (fun kv hkv => hgap kv (List.mem_cons_of_mem _ hkv))⟩
    intro kv hkv
    rcases putKV_mem rest k v kv hkv with h | rfl
    · exact hhead kv h
    · exact hk0

/-- Folding the write of a tolerance-separated ascending suffix whose times
all sit above the stored keys preserves the key-separation and
record-well-formedness invariants, and adds exactly the suffix's keys. -/
theorem foldPut_spec :
    ∀ (keep : List Data) (st : List (ℕ × List ℕ)),
      keySep st →
      keep.Pairwise ltApprox →
      (∀ v ∈ keep, 0 ≤ unixSec v.time ∧ unixSec v.time < 2 ^ 63) →
      (∀ kv ∈ st, ∀ v ∈ keep, (kv.1 : ℤ) + 5 ≤ unixSec v.time) →
      (∀ kv ∈ st, recOK kv) →
      keySep (keep.foldl (fun s v => putKV s (boltKey v) (marshalBinary v)) st) ∧
      (∀ kv ∈ keep.foldl (fun s v => putKV s (boltKey v) (marshalBinary v)) st,
        recOK kv) ∧
      (∀ k : ℕ,
        (∃ kv ∈ keep.foldl (fun s v => putKV s (boltKey v) (marshalBinary v)) st,
          kv.1 = k) ↔
        ((∃ kv ∈ st, kv.1 = k) ∨ ∃ v ∈ keep, boltKey v = k)) := by
  intro keep
  induction keep with
  | nil =>
    intro st hsep _ _ _ hrec
    refine ⟨hsep, hrec, fun k => ?_⟩
    simp
  | cons v rest ih =>
    intro st hsep hpw hrange hgap hrec
    obtain ⟨hv0, hv1⟩ := hrange v (List.mem_cons_self _ _)
    have hbk : (boltKey v : ℤ) = unixSec v.time := boltKey_eq v hv0 hv1
    obtain ⟨hvrest, hpwrest⟩ := List.pairwise_cons.mp hpw
    have hsep1 : keySep (putKV st (boltKey v) (marshalBinary v)) :=
      putKV_sep st _ _ hsep fun kv hkv => by
        have := hgap kv hkv v (List.mem_cons_self _ _)
        omega
    have hrec1 : ∀ kv ∈ putKV st (boltKey v) (marshalBinary v), recOK kv := by
      intro kv hkv
      rcases putKV_mem st _ _ kv hkv with h | heq
      · exact hrec kv h
      · rw [heq]
        exact recOK_marshal v hv0 hv1
    have hgap1 : ∀ kv ∈ putKV st (boltKey v) (marshalBinary v),
        ∀ w ∈ rest, (kv.1 : ℤ) + 5 ≤ unixSec w.time := by
      intro kv hkv w hw
      rcases putKV_mem st _ _ kv hkv with h | heq
      · exact hgap kv h w (List.mem_cons_of_mem _ hw)
      · rw [heq]
        have := (ltApprox_iff v w).mp (hvrest w hw)
        simpa [hbk] using this
    obtain ⟨hsepf, hrecf, hkeysf⟩ := ih (putKV st (boltKey v) (marshalBinary v))
      hsep1 hpwrest (fun w hw => hrange w (List.mem_cons_of_mem _ hw)) hgap1 hrec1
    refine ⟨hsepf, hrecf, fun k => ?_⟩
    rw [List.foldl_cons] at *
    rw [hkeysf k, putKV_mem_keys]
    constructor
    · rintro ((h | h) | h)
      · exact Or.inl h
      · exact Or.inr ⟨v, List.mem_cons_self _ _, h.symm⟩
      · obtain ⟨w, hw, hwk⟩ := h
        exact Or.inr ⟨w, List.mem_cons_of_mem _ hw, hwk⟩
    · rintro (h | ⟨w, hw, hwk⟩)
      · exact Or.inl (Or.inl h)
      · rcases List.mem_cons.mp hw with heq | hw'
        · refine Or.inl (Or.inr ?_)
          rw [← hwk, heq]
        · exact Or.inr ⟨w, hw', hwk⟩

/-- The `ForEach` pass of bolt `Data` with zero bounds collects every stored
record; on a well-formed bucket the result is already ascending with
tolerance gaps. -/
theorem boltFilterRows_wf :
    ∀ (store : List (ℕ × List ℕ)), (∀ kv ∈ store, recOK kv) →
      ∃ rows, boltFilterRows goZeroUnix goZeroUnix store = .ok rows ∧
        (∀ r' ∈ rows, ∃ kv' ∈ store, unixSec r'.time = (kv'.1 : ℤ)) ∧
        (keySep store → rows.Pairwise ltApprox) := by
  intro store
  induction store with
  | nil => exact fun _ => ⟨[], rfl, by simp, by simp⟩
  | cons kv rest ih =>
    intro hrec
    obtain ⟨r, hr, hrt⟩ := hrec kv (List.mem_cons_self _ _)
    obtain ⟨rows, hrows, hmem, hpw⟩ := ih fun kv' hkv' =>
      hrec kv' (List.mem_cons_of_mem _ hkv')
    refine ⟨r :: rows, ?_, ?_, ?_⟩
    · show (do
        let row ← unmarshalBinary kv.2
        let rows ← boltFilterRows goZeroUnix goZeroUnix rest
        let t := unixSec row.time
        if goZeroUnix > t then (.ok rows : Except DBErr (List Data))
        else if goZeroUnix > 0 ∧ t > goZeroUnix then .ok rows
        else .ok (row :: rows)) = .ok (r :: rows)
      rw [hr, hrows]
      show (if goZeroUnix > unixSec r.time then (.ok rows : Except DBErr (List Data))
        else if goZeroUnix > 0 ∧ unixSec r.time > goZeroUnix then .ok rows
        else .ok (r :: rows)) = .ok (r :: rows)
      rw [if_neg (by rw [hrt]; unfold goZeroUnix; omega),
        if_neg (by unfold goZeroUnix; omega)]
    · intro r' hr'
      rcases List.mem_cons.mp hr' with heq | hr'
      · exact ⟨kv, List.mem_cons_self _ _, by rw [heq]; exact hrt⟩
      · obtain ⟨kv', hkv', hk'⟩ := hmem r' hr'
        exact ⟨kv', List.mem_cons_of_mem _ hkv', hk'⟩
    · intro hsep
      obtain ⟨hhead, htail⟩ := List.pairwise_cons.mp hsep
      refine List.pairwise_cons.mpr ⟨?_, hpw htail⟩
      intro r' hr'
      obtain ⟨kv', hkv', hk'⟩ := hmem r' hr'
      rw [ltApprox_iff, hrt, hk']
      have := hhead kv' hkv'
      omega

/-- On a well-formed bucket, `Data(id, 0, 0)` succeeds and yields a strictly
ascending sequence with no two entries within the tolerance window. -/
theorem boltData_wf_sorted (db : BoltDB) (id : String)
    (store : List (ℕ × List ℕ)) (hdev : alookup db.devs id = some store)
    (hsep : keySep store) (hrec : ∀ kv ∈ store, recOK kv) :
    ∃ rows, boltData db id goZeroUnix goZeroUnix = .ok rows ∧
      rows.Pairwise ltApprox := by
  obtain ⟨rows, hrows, -, hpw⟩ := boltFilterRows_wf store hrec
  have hsorted := hpw hsep
  refine ⟨rows, ?_, hsorted⟩
  unfold boltData
  rw [hdev]
  show (do
    let rows ← boltFilterRows goZeroUnix goZeroUnix store
    Except.ok (goSort ltApprox rows) : Except DBErr (List Data)) =
      .ok rows
  rw [hrows]
  show Except.ok (goSort ltApprox rows) = _
  rw [goSort_of_sorted rows hsorted]

/-- C1 (amended): on the bolt backend, for a well-formed namespace and a
batch whose samples are pairwise more than the 5-second tolerance apart
(and have representable non-negative times), `PutData` succeeds; the stored
keys afterwards are exactly the old keys plus the times of the batch samples
strictly after the pre-call last sample (under the separation hypothesis the
advancing last-sample pointer and the pre-call last sample select the same
samples); the namespace invariant is preserved — in particular `Last`
returns the sample carrying the maximal stored time — and `Data(id,0,0)`
yields a strictly ascending sequence with no two entries within the
tolerance window. (Without the separation hypothesis the code violates the
claim: see the counterexample.) -/
theorem c1_put_monotone_amended (db : BoltDB) (id : String) (vs : List Data)
    (cached : Data) (store : List (ℕ × List ℕ))
    (hlast : alookup db.last id = some cached)
    (hdev : alookup db.devs id = some store)
    (hwf : boltWF store cached)
    (hsep : vs.Pairwise fun a b => ltApprox a b ∨ ltApprox b a)
    (hrange : ∀ v ∈ vs, 0 ≤ unixSec v.time ∧ unixSec v.time < 2 ^ 63) :
    (boltPutData db id vs).1 = .ok () ∧
    ∃ store₁ last₁,
      alookup (boltPutData db id vs).2.devs id = some store₁ ∧
      alookup (boltPutData db id vs).2.last id = some last₁ ∧
      (∀ k : ℕ, (∃ kv ∈ store₁, kv.1 = k) ↔
        ((∃ kv ∈ store, kv.1 = k) ∨
          ∃ v ∈ vs, ltApprox cached v ∧ boltKey v = k)) ∧
      boltWF store₁ last₁ ∧
      ∃ rows, boltData (boltPutData db id vs).2 id goZeroUnix goZeroUnix =
          .ok rows ∧ rows.Pairwise ltApprox := by
  have hSPW : (goSort ltApprox vs).Pairwise ltApprox :=
    goSort_sorted_of_separated vs hsep
  have hmemS : ∀ v, v ∈ goSort ltApprox vs ↔ v ∈ vs :=
    fun v => (goSort_perm ltApprox vs).mem_iff
  have hkeepeq : (goSort ltApprox vs).drop
      ((goSort ltApprox vs).findIdx fun v =>
        decide (ltApprox cached v)) =
      (goSort ltApprox vs).filter fun v =>
        decide (ltApprox cached v) :=
    drop_findIdx_eq_filter cached _ hSPW
  by_cases hkeep : ((goSort ltApprox vs).drop
      ((goSort ltApprox vs).findIdx fun v =>
        decide (ltApprox cached v))).isEmpty = true
  · have h1 : boltPutData db id vs = (.ok (), db) := by
      unfold boltPutData
      rw [hlast]
      simp only [hkeep, if_true]
    rw [h1]
    refine ⟨rfl, store, cached, hdev, hlast, ?_, hwf, ?_⟩
    · intro k
      constructor
      · exact fun h => Or.inl h
      · rintro (h | ⟨v, hv, hlt, hk⟩)
        · exact h
        · exfalso
          have hvf : v ∈ (goSort ltApprox vs).filter fun v =>
              decide (ltApprox cached v) :=
            List.mem_filter.mpr ⟨(hmemS v).mpr hv, decide_eq_true hlt⟩
          rw [← hkeepeq] at hvf
          rw [List.isEmpty_iff] at hkeep
          rw [hkeep] at hvf
          simp at hvf
    · exact boltData_wf_sorted db id store hdev hwf.1 hwf.2.1
  · have hkeepne : ((goSort ltApprox vs).filter fun v =>
        decide (ltApprox cached v)) ≠ [] := by
      rw [← hkeepeq]
      intro hnil
      exact hkeep (by rw [hnil]; rfl)
    have h1 : boltPutData db id vs =
        (.ok (),
         { devs := aset db.devs id
             (boltWriteLoop cached
               ((goSort ltApprox vs).drop
                 ((goSort ltApprox vs).findIdx fun v =>
                   decide (ltApprox cached v))) store cached).1
         , last := aset db.last id
             (boltWriteLoop cached
               ((goSort ltApprox vs).drop
                 ((goSort ltApprox vs).findIdx fun v =>
                   decide (ltApprox cached v))) store cached).2 }) := by
      unfold boltPutData
      rw [hlast]
      simp only [hkeep, hdev]
      simp
    rw [h1, hkeepeq, boltWriteLoop_eq]
    -- facts about the kept suffix (= the filtered batch)
    have hkeepPW : ((goSort ltApprox vs).filter fun v =>
        decide (ltApprox cached v)).Pairwise ltApprox := hSPW.filter _
    have hkeeprange : ∀ v ∈ (goSort ltApprox vs).filter
        (fun v => decide (ltApprox cached v)),
        0 ≤ unixSec v.time ∧ unixSec v.time < 2 ^ 63 :=
      fun v hv => hrange v ((hmemS v).mp (List.mem_filter.mp hv).1)
    have hgap : ∀ kv ∈ store, ∀ v ∈ (goSort ltApprox vs).filter
        (fun v => decide (ltApprox cached v)), (kv.1 : ℤ) + 5 ≤ unixSec v.time := by
      intro kv hkv v hv
      have hlt := of_decide_eq_true (List.mem_filter.mp hv).2
      have h5 := (ltApprox_iff cached v).mp hlt
      rcases hwf.2.2 with ⟨hempty, -⟩ | ⟨-, -, hmax⟩
      · rw [hempty] at hkv
        simp at hkv
      · have := hmax kv hkv
        omega
    obtain ⟨hsepf, hrecf, hkeysf⟩ := foldPut_spec
      ((goSort ltApprox vs).filter fun v => decide (ltApprox cached v))
      store hwf.1 hkeepPW hkeeprange hgap hwf.2.1
    -- the cache fold returns the maximal kept sample
    rcases foldl_update_spec cached
        ((goSort ltApprox vs).filter fun v => decide (ltApprox cached v))
        cached with ⟨-, hall⟩ | ⟨l1, vstar, l2, hdecomp, hpred, hl2, hfoldeq⟩
    · exfalso
      obtain ⟨w, hw⟩ := List.exists_mem_of_ne_nil _ hkeepne
      exact hall w hw (of_decide_eq_true (List.mem_filter.mp hw).2)
    have hl2nil : l2 = [] := by
      cases hl2' : l2 with
      | nil => rfl
      | cons w l2' =>
        exfalso
        have hwkeep : w ∈ (goSort ltApprox vs).filter fun v =>
            decide (ltApprox cached v) := by
          rw [hdecomp, hl2']
          simp
        exact hl2 w (by rw [hl2']; exact List.mem_cons_self _ _)
          (of_decide_eq_true (List.mem_filter.mp hwkeep).2)
    subst hl2nil
    have hvstarkeep : vstar ∈ (goSort ltApprox vs).filter fun v =>
        decide (ltApprox cached v) := by
      rw [hdecomp]
      simp
    obtain ⟨hvstar0, hvstar1⟩ := hkeeprange vstar hvstarkeep
    have hvstarbk : (boltKey vstar : ℤ) = unixSec vstar.time :=
      boltKey_eq vstar hvstar0 hvstar1
    -- every kept sample's time is at most vstar's
    have hkeepmax : ∀ w ∈ (goSort ltApprox vs).filter
        (fun v => decide (ltApprox cached v)), unixSec w.time ≤ unixSec vstar.time := by
      intro w hw
      rw [hdecomp] at hw
      rcases List.mem_append.mp hw with hw1 | hw2
      · have hpw' := hkeepPW
        rw [hdecomp] at hpw'
        obtain ⟨-, -, hcross⟩ := List.pairwise_append.mp hpw'
        have := (ltApprox_iff w vstar).mp
          (hcross w hw1 vstar (List.mem_cons_self _ _))
        omega
      · rw [List.mem_singleton.mp hw2]
    refine ⟨rfl, _, _, alookup_aset_self _ _ _, alookup_aset_self _ _ _,
      ?_, ⟨hsepf, hrecf, ?_⟩, ?_⟩
    · -- key membership
      intro k
      rw [hkeysf k]
      constructor
      · rintro (h | ⟨w, hw, hwk⟩)
        · exact Or.inl h
        · obtain ⟨hwS, hwp⟩ := List.mem_filter.mp hw
          exact Or.inr ⟨w, (hmemS w).mp hwS, of_decide_eq_true hwp, hwk⟩
      · rintro (h | ⟨w, hw, hwlt, hwk⟩)
        · exact Or.inl h
        · exact Or.inr ⟨w, List.mem_filter.mpr
            ⟨(hmemS w).mpr hw, decide_eq_true hwlt⟩, hwk⟩
    · -- last-sample coherence
      rw [hfoldeq]
      refine Or.inr ⟨?_, ?_, ?_⟩
      · -- the new store is nonempty: it holds vstar's key
        obtain ⟨kv, hkv, -⟩ := (hkeysf (boltKey vstar)).mpr
          (Or.inr ⟨vstar, hvstarkeep, rfl⟩)
        exact List.ne_nil_of_mem hkv
      · obtain ⟨kv, hkv, hkk⟩ := (hkeysf (boltKey vstar)).mpr
          (Or.inr ⟨vstar, hvstarkeep, rfl⟩)
        refine ⟨kv, hkv, ?_⟩
        show unixSec vstar.time = (kv.1 : ℤ)
        rw [hkk, hvstarbk]
      · intro kv hkv
        show (kv.1 : ℤ) ≤ unixSec vstar.time
        rcases (hkeysf kv.1).mp ⟨kv, hkv, rfl⟩ with ⟨kv', hkv', hkk⟩ |
          ⟨w, hw, hwk⟩
        · rcases hwf.2.2 with ⟨hempty, -⟩ | ⟨-, -, hmax⟩
          · rw [hempty] at hkv'
            simp at hkv'
          · have h1' := hmax kv' hkv'
            have h5 := (ltApprox_iff cached vstar).mp
              (of_decide_eq_true (List.mem_filter.mp hvstarkeep).2)
            omega
        · have hw0 := (hkeeprange w hw).1
          have hw1 := (hkeeprange w hw).2
          have : (boltKey w : ℤ) = unixSec w.time := boltKey_eq w hw0 hw1
          rw [← hwk, this]
          exact hkeepmax w hw
    · -- the range query stays sorted and separated
      exact boltData_wf_sorted _ id _ (alookup_aset_self _ _ _) hsepf hrecf

/-- Witness for C1's amended theorem: a separated two-sample batch into an
empty namespace succeeds and yields a sorted, tolerance-separated range
query. -/
theorem c1_put_monotone_witness :
    (boltPutData boltDB1 "dev1" [atSec 100, atSec 110]).1 = .ok () ∧
    ∃ rows, boltData (boltPutData boltDB1 "dev1" [atSec 100, atSec 110]).2
        "dev1" goZeroUnix goZeroUnix = .ok rows ∧ rows.Pairwise ltApprox := by
  have hlt : ltApprox (atSec 100) (atSec 110) := by
    rw [ltApprox_iff]
    show unixSec ((100 : ℤ) * nsPerSec) + 5 ≤ unixSec ((110 : ℤ) * nsPerSec)
    rw [unixSec_of_sec, unixSec_of_sec]
    norm_num
  have hu100 : unixSec (atSec 100).time = 100 := unixSec_of_sec 100
  have hu110 : unixSec (atSec 110).time = 110 := unixSec_of_sec 110
  obtain ⟨hok, store₁, last₁, -, -, -, -, rows, hrows, hpw⟩ :=
    c1_put_monotone_amended boltDB1 "dev1" [atSec 100, atSec 110] Data.zero []
      rfl rfl ⟨List.Pairwise.nil, by simp, Or.inl ⟨rfl, rfl⟩⟩
      (by
        refine List.pairwise_cons.mpr ⟨?_, ?_⟩
        · intro b hb
          rw [List.mem_singleton.mp hb]
          exact Or.inl hlt
        · exact List.pairwise_singleton _ _)
      (by
        intro v hv
        rcases List.mem_cons.mp hv with heq | hv'
        · rw [heq, hu100]; norm_num
        · rw [List.mem_singleton.mp hv', hu110]; norm_num)
  exact ⟨hok, rows, hrows, hpw⟩

/-- Counterexample for C1 as stated: a batch holding two near-duplicate
samples (Unix seconds 100 and 103, well inside the 5-second tolerance)
pushed into an empty bolt namespace. The sort leaves them in input order;
the skip check compares both against the pre-call (zero) last sample, so
the 103 s sample is written although it is within the tolerance of the
just-advanced 100 s last sample, and `Data(id,0,0)` yields two stored
entries only 3 seconds apart — the claimed tolerance-deduplication does not
hold. -/
theorem c1_put_monotone_counterexample :
    (boltPutData boltDB1 "dev1" [atSec 100, atSec 103]).1 = .ok () ∧
    ∃ r1 r2,
      boltData (boltPutData boltDB1 "dev1" [atSec 100, atSec 103]).2 "dev1"
        goZeroUnix goZeroUnix = .ok [r1, r2] ∧
      unixSec r1.time = 100 ∧ unixSec r2.time = 103 ∧
      |unixSec r2.time - unixSec r1.time| < timeResolution :=
  ⟨rfl, _, _, rfl, rfl, rfl, by
    show |(103 : ℤ) - (100 : ℤ)| < timeResolution
    norm_num [timeResolution]⟩

end Aranet4
